import Mathlib

/-!
# Array-Utils: the integer sequence library `UNumericBPLibrary`

A shallow embedding of `Plugins/Numeric/Source/Numeric/Private/NumericBPLibrary.cpp`.

* A `TArray<int32>` is a `List Int`; `A.Num()` is `A.length`.
* An `int32` scalar argument is an `Int`. The index arithmetic of `Rotate`
  stays inside `(-Num, Num)`, so no wrap-around occurs in it. Arithmetic on
  elements (`std::partial_sum`, `std::accumulate`) is `int32` arithmetic:
  `add32` reduces the exact sum modulo `2^32` into `[-2^31, 2^31)` (`wrap32`);
  `isInt32` is the range of the element type.
* Routines of the C++ standard library and of the engine (`std::rotate`,
  `std::search`, `std::mismatch`, `std::equal`, `std::is_permutation`,
  `std::partial_sum`, `std::accumulate`, `std::max_element`,
  `std::next_permutation`, `std::lexicographical_compare`, `FMath::Clamp`,
  `std::inner_product`, `std::is_sorted_until`, `std::iota`, `std::for_each`,
  `std::sample`,
  `Algo::Sort`, `Algo::StableSort`, `Algo::IsSorted`) are not part of the
  repository. Each is embedded by its reference algorithm, under the name
  `std_...` / `Algo_...`.
* A three-iterator routine receives no end for its second range. When it
  dereferences the second range at or past that range's length the embedding
  stops with `Reads.pastEnd pos`.
* `std::sample` draws from a random engine. The engine is a parameter `rng`
  of `Sample`, and a statement for every outcome of the engine quantifies over
  `rng`.
-/

namespace ArrayUtils

/-! ## Definitions -/

/-- Outcome of a routine that walks a second range given only by its start:
`done v` when it returns `v`, `pastEnd pos` when it dereferences position `pos`
of the second range although that range has at most `pos` elements. -/
inductive Reads (α : Type) where
  | done (value : α)
  | pastEnd (pos : Nat)
deriving DecidableEq, Repr

/-- The effect of `std::rotate(first, first + m, last)` on the range `B`, for
`m ≤ B.length`: the elements of `[first + m, last)` come first, followed by the
elements of `[first, first + m)`. -/
def std_rotate (B : List Int) (m : Nat) : List Int :=
  B.drop m ++ B.take m

/-- `UNumericBPLibrary::Rotate`. `Amount % B.Num()` is the C++ remainder, which
truncates towards zero (`Int.tmod`); a negative remainder is then shifted up by
`B.Num()`. The log line does not affect the returned array. -/
def Rotate (A : List Int) (Amount : Int) : List Int :=
  let B := A
  if B.length > 0 then
    let Amount1 := Int.tmod Amount (B.length : Int)
    let Amount2 := if Amount1 < 0 then (B.length : Int) + Amount1 else Amount1
    std_rotate B Amount2.toNat
  else
    B

/-- Outcome of the inner loop of `std::search` at one candidate position. -/
inductive SearchStep where
  | matched
  | exhausted
  | differ
deriving DecidableEq, Repr

/-- Inner loop of `std::search`: walks the text from `it` and the pattern from
`s_it` together. `matched` when the pattern ends first (`s_it == s_last`, tested
before `it == last`), `exhausted` when the text ends inside the pattern,
`differ` at the first pair of unequal elements. -/
def searchInner : List Int → List Int → SearchStep
  | _, [] => .matched
  | [], _ :: _ => .exhausted
  | a :: as, b :: bs => if a = b then searchInner as bs else .differ

/-- Outer loop of `std::search(first, last, s_first, s_last)`, as an offset
from `A.GetData()`: `rest` is `[first, last)` and `i` the offset of `first`.
Returns the offset of `first` on a match, the offset of `last` when the text is
exhausted, and moves `first` one step on a difference. -/
def std_search (B : List Int) : List Int → Nat → Nat
  | [], i => i
  | a :: as, i =>
    match searchInner (a :: as) B with
    | .matched => i
    | .exhausted => i + (a :: as).length
    | .differ => std_search B as (i + 1)

/-- `UNumericBPLibrary::Search`, returning `(found, index)`. -/
def Search (A B : List Int) : Bool × Int :=
  let result := std_search B A 0
  if result ≠ A.length then (true, (result : Int)) else (false, -1)

/-- Three-iterator `std::mismatch(first1, last1, first2)`:
`while (first1 != last1 && *first1 == *first2) ++first1, ++first2;`
as the offset reached by `first1`; `i` is the offset of the current position.
The second range has no end test, so `*first2` is read past `B` when `B` ends
before a difference is met. -/
def std_mismatch : List Int → List Int → Nat → Reads Nat
  | [], _, i => .done i
  | _ :: _, [], i => .pastEnd i
  | a :: as, b :: bs, i => if a = b then std_mismatch as bs (i + 1) else .done i

/-- `UNumericBPLibrary::Mismatch`, returning `(IsMismatch, index)`. -/
def Mismatch (A B : List Int) : Reads (Bool × Int) :=
  match std_mismatch A B 0 with
  | .pastEnd pos => .pastEnd pos
  | .done result =>
    if result ≠ A.length then .done (true, (result : Int)) else .done (false, -1)

/-- Three-iterator `std::equal(first1, last1, first2)`: compares each element
of the first range with the element at the same offset of the second; `i` is
the offset of the current position. -/
def std_equal : List Int → List Int → Nat → Reads Bool
  | [], _, _ => .done true
  | _ :: _, [], i => .pastEnd i
  | a :: as, b :: bs, i => if a = b then std_equal as bs (i + 1) else .done false

/-- `UNumericBPLibrary::ArrayIsEqual`: `&&` evaluates `std::equal` only when
the lengths agree. -/
def ArrayIsEqual (A B : List Int) : Reads Bool :=
  if A.length = B.length then std_equal A B 0 else .done false

/-- `Algo::IsSorted` with the default `<`: false at the first adjacent pair
whose second element is less than its first. -/
def Algo_IsSorted : List Int → Bool
  | [] => true
  | [_] => true
  | a :: b :: rest => if b < a then false else Algo_IsSorted (b :: rest)

/-- `UNumericBPLibrary::IsSorted`. -/
def IsSorted (A : List Int) : Bool :=
  decide (A.length ≤ 1) || Algo_IsSorted A

/-- `Algo::StableSort` with the default `<`, an engine routine: the array is
put in ascending order, equal elements keeping their relative order. Embedded
as insertion sort, which is stable. -/
def Algo_StableSort (A : List Int) : List Int :=
  A.insertionSort (· ≤ ·)

/-- `Algo::Sort` with the default `<`, an engine routine: the array is put in
ascending order. On integers every correct sort returns the same array, so it
is embedded as insertion sort. -/
def Algo_Sort (A : List Int) : List Int :=
  A.insertionSort (· ≤ ·)

/-- `UNumericBPLibrary::StableSortAscending` (the array is taken by value). -/
def StableSortAscending (A : List Int) : List Int :=
  Algo_StableSort A

/-- `UNumericBPLibrary::SortAscending`. -/
def SortAscending (A : List Int) : List Int :=
  let Result := A
  Algo_Sort Result

/-- `UNumericBPLibrary::PartialSortAscending`. The standard leaves the order of
the elements after `middle` unspecified, so `std::partial_sort` is the
parameter `partial_sort`, applied to the array and the offset of `middle`. -/
def PartialSortAscending (partial_sort : List Int → Nat → List Int)
    (A : List Int) (N : Int) : List Int :=
  let Result := A
  if N ≥ 0 ∧ N < (A.length : Int) then partial_sort Result N.toNat else Result

/-- The loop of `std::is_permutation` over the first range after the common
prefix: `seen` is `[first, i)`, the second argument `[i, last)`, and `dB` the
second range `[d_first, d_last)`. A value already met in `seen` is skipped;
otherwise its count in `dB` must be non-zero and equal to its count in
`[i, last)`. -/
def permLoop (dB : List Int) : List Int → List Int → Bool
  | _, [] => true
  | seen, x :: rest =>
    if x ∈ seen then permLoop dB (seen ++ [x]) rest
    else if dB.count x = 0 ∨ (x :: rest).count x ≠ dB.count x then false
    else permLoop dB (seen ++ [x]) rest

/-- The first step of `std::is_permutation`: both ranges are advanced over
their common prefix (a call of `std::mismatch`). -/
def skipCommonPrefix : List Int → List Int → List Int × List Int
  | a :: as, b :: bs => if a = b then skipCommonPrefix as bs else (a :: as, b :: bs)
  | as, bs => (as, bs)

/-- Three-iterator `std::is_permutation(first, last, d_first)`. The second
range is taken to be as long as the first (`d_last = d_first + (last - first)`),
so a shorter `B` is read past its end. -/
def std_is_permutation (A B : List Int) : Reads Bool :=
  if B.length < A.length then .pastEnd B.length
  else
    let p := skipCommonPrefix A (B.take A.length)
    .done (permLoop p.2 [] p.1)

/-- `UNumericBPLibrary::IsPermutation`: `&&` evaluates `std::is_permutation`
only when the lengths agree. -/
def IsPermutation (A B : List Int) : Reads Bool :=
  if A.length = B.length then std_is_permutation A B else .done false

/-- The value an `int32` holds after a two's-complement computation whose exact
result is `x`: the representative of `x` modulo `2^32` in `[-2^31, 2^31)`. -/
def wrap32 (x : Int) : Int :=
  (x + 2147483648) % 4294967296 - 2147483648

/-- `int32` addition. -/
def add32 (a b : Int) : Int :=
  wrap32 (a + b)

/-- The values an `int32` can hold. -/
def isInt32 (x : Int) : Prop :=
  -2147483648 ≤ x ∧ x ≤ 2147483647

instance (x : Int) : Decidable (isInt32 x) := by
  unfold isInt32; infer_instance

/-- The loop of `std::max_element` after `largest = first`: `largest` is the
value at the iterator `largest`, replaced when `*largest < *first`. -/
def max_element_loop (largest : Int) : List Int → Int
  | [] => largest
  | x :: rest => if largest < x then max_element_loop x rest else max_element_loop largest rest

/-- The loop of `std::min_element` after `smallest = first`: `smallest` is
replaced when `*first < *smallest`. -/
def min_element_loop (smallest : Int) : List Int → Int
  | [] => smallest
  | x :: rest => if x < smallest then min_element_loop x rest else min_element_loop smallest rest

/-- `UNumericBPLibrary::ArrayMax`: `-1` unless `A.Num() > 0`, else the value at
`std::max_element`. -/
def ArrayMax (A : List Int) : Int :=
  match A with
  | [] => -1
  | x :: rest => max_element_loop x rest

/-- `UNumericBPLibrary::ArrayMin`: `-1` unless `A.Num() > 0`, else the value at
`std::min_element`. -/
def ArrayMin (A : List Int) : Int :=
  match A with
  | [] => -1
  | x :: rest => min_element_loop x rest

/-- The loop of `std::partial_sum` after the first element:
`sum = sum + *first; *++d_first = sum;` in `int32`. -/
def partialSumLoop (sum : Int) : List Int → List Int
  | [] => []
  | x :: rest => add32 sum x :: partialSumLoop (add32 sum x) rest

/-- `std::partial_sum(first, last, first)` on a range: nothing on the empty
range, otherwise `sum = *first; *d_first = sum;` followed by the loop. Each
element is read before its position is written, so running in place is the same
as writing to a copy. -/
def std_partial_sum : List Int → List Int
  | [] => []
  | x :: rest => x :: partialSumLoop x rest

/-- `UNumericBPLibrary::PartialSum`. -/
def PartialSum (A : List Int) : List Int :=
  let Result := A
  std_partial_sum Result

/-- `FMath::Min`, an engine routine: `(A < B) ? A : B`. -/
def FMath_Min (A B : Int) : Int :=
  if A < B then A else B

/-- `FMath::Max`, an engine routine: `(B < A) ? A : B`. -/
def FMath_Max (A B : Int) : Int :=
  if B < A then A else B

/-- `FMath::Clamp`, an engine routine: `Max(Min(X, MaxValue), MinValue)`. -/
def FMath_Clamp (X MinValue MaxValue : Int) : Int :=
  FMath_Max (FMath_Min X MaxValue) MinValue

/-- `UNumericBPLibrary::PartialSumN`: the partial sums are written over the
first `N` positions (after clamping), the other positions keep the copy of
`A`. -/
def PartialSumN (A : List Int) (N : Int) : List Int :=
  let N1 := FMath_Clamp N 0 (A.length : Int)
  let Result := A
  std_partial_sum (Result.take N1.toNat) ++ Result.drop N1.toNat

/-- `std::accumulate(first, last, init)` with `+` on `int32`:
`for (; first != last; ++first) init = init + *first; return init;`. -/
def std_accumulate : List Int → Int → Int
  | [], init => init
  | x :: rest, init => std_accumulate rest (add32 init x)

/-- `UNumericBPLibrary::Accumulate`. -/
def Accumulate (A : List Int) : Int :=
  if A.length > 0 then std_accumulate A 0 else -1

/-- `UNumericBPLibrary::BiggestArray`. -/
def BiggestArray (A B : List Int) : List Int :=
  let SumA := std_accumulate A 0
  let SumB := std_accumulate B 0
  if SumA > SumB then A else B

/-- `UNumericBPLibrary::SmallestArray`. -/
def SmallestArray (A B : List Int) : List Int :=
  let SumA := std_accumulate A 0
  let SumB := std_accumulate B 0
  if SumA > SumB then B else A

/-- `UNumericBPLibrary::ArrayIsDecreasing`: false at the first `i` with
`A[i - 1] < A[i]`. -/
def ArrayIsDecreasing : List Int → Bool
  | [] => true
  | [_] => true
  | a :: b :: rest => if a < b then false else ArrayIsDecreasing (b :: rest)

/-- `UNumericBPLibrary::ArrayIsIncreasing`: false at the first `i` with
`A[i - 1] > A[i]`. -/
def ArrayIsIncreasing : List Int → Bool
  | [] => true
  | [_] => true
  | a :: b :: rest => if a > b then false else ArrayIsIncreasing (b :: rest)

/-- The backward scan of `std::next_permutation` / `std::prev_permutation`,
on the range read from its last element (`i1 = i; if (lt(*--i, *i1))` for
`next`, with the roles of the two elements exchanged in `lt` for `prev`). The
first component is the part scanned up to and including `*i1` at the stop, the
second starts with the pivot `*i`; the second is empty when the scan reaches
`first`. `lt y x` is the stop test for `*i = y`, `*i1 = x`. -/
def sortedRun (lt : Int → Int → Bool) : List Int → List Int × List Int
  | [] => ([], [])
  | [x] => ([x], [])
  | x :: y :: t =>
    if lt y x then ([x], y :: t)
    else ((x :: (sortedRun lt (y :: t)).1), (sortedRun lt (y :: t)).2)

/-- The second scan, `i2 = last; while (!lt(*i, *--i2));`, followed by
`iter_swap(i, i2)`: the first element `x` of the scanned part (read from the
last element) with `lt p x` takes the place of the pivot `p`. Returns the new
pivot and the scanned part after the swap. -/
def swapPivot (lt : Int → Int → Bool) (p : Int) : List Int → Int × List Int
  | [] => (p, [])
  | x :: t =>
    if lt p x then (x, p :: t)
    else ((swapPivot lt p t).1, x :: (swapPivot lt p t).2)

/-- Common body of `std::next_permutation` and `std::prev_permutation`: scan
from the end for the pivot; without a pivot reverse the whole range; otherwise
swap the pivot and reverse the part after it. -/
def permutationStep (lt : Int → Int → Bool) (A : List Int) : List Int :=
  match sortedRun lt A.reverse with
  | (run, []) => run
  | (run, p :: rest) => rest.reverse ++ (swapPivot lt p run).1 :: (swapPivot lt p run).2

/-- `std::next_permutation(first, last)` with `<`. -/
def std_next_permutation (A : List Int) : List Int :=
  permutationStep (fun a b => decide (a < b)) A

/-- `std::prev_permutation(first, last)` with `<`: the same steps with the
arguments of every comparison exchanged. -/
def std_prev_permutation (A : List Int) : List Int :=
  permutationStep (fun a b => decide (b < a)) A

/-- `UNumericBPLibrary::NextPermutation` (the array is taken by value; the log
line does not affect the returned array). -/
def NextPermutation (A : List Int) : List Int :=
  if A.length > 1 then std_next_permutation A else A

/-- `UNumericBPLibrary::PrevPermutation`. -/
def PrevPermutation (A : List Int) : List Int :=
  if A.length > 1 then std_prev_permutation A else A

/-- `std::lexicographical_compare(first1, last1, first2, last2)` with `<`. -/
def std_lexicographical_compare : List Int → List Int → Bool
  | [], [] => false
  | [], _ :: _ => true
  | _ :: _, [] => false
  | a :: as, b :: bs =>
    if a < b then true
    else if b < a then false
    else std_lexicographical_compare as bs

/-- `UNumericBPLibrary::LexicographicalCompare`. -/
def LexicographicalCompare (A B : List Int) : Bool :=
  std_lexicographical_compare A B

/-- `int32` subtraction. -/
def sub32 (a b : Int) : Int :=
  wrap32 (a - b)

/-- `int32` multiplication. -/
def mul32 (a b : Int) : Int :=
  wrap32 (a * b)

/-- `std::accumulate(first, last, init, op)`:
`for (; first != last; ++first) init = op(init, *first); return init;`. -/
def std_accumulate_op (op : Int → Int → Int) : List Int → Int → Int
  | [], init => init
  | x :: rest, init => std_accumulate_op op rest (op init x)

/-- `UNumericBPLibrary::Deaccumulate`: `std::accumulate` from `0` with
`std::minus<int32>`. -/
def Deaccumulate (A : List Int) : Int :=
  std_accumulate_op sub32 A 0

/-- Three-iterator `std::inner_product(first1, last1, first2, init)`:
`init = init + (*first1) * (*first2)` for each position of the first range, in
`int32`; `i` is the offset of the current position. The second range has no
end test. -/
def std_inner_product : List Int → List Int → Int → Nat → Reads Int
  | [], _, init, _ => .done init
  | _ :: _, [], _, i => .pastEnd i
  | a :: as, b :: bs, init, i => std_inner_product as bs (add32 init (mul32 a b)) (i + 1)

/-- `UNumericBPLibrary::InnerProduct`: `std::inner_product` runs only when the
lengths agree and are positive. -/
def InnerProduct (A B : List Int) (StartIndex : Int) : Reads Int :=
  if A.length = B.length ∧ A.length > 0 ∧ B.length > 0 then
    std_inner_product A B StartIndex 0
  else
    .done (-1)

/-- The loop of `std::is_sorted_until` with `<`: `first` is the value at the
iterator `first`, the list is `[next, last)` and `i` the offset of `next`.
Returns the offset of `next` at the first `*next < *first`, the offset of
`last` when there is none. -/
def is_sorted_until_loop (first : Int) : List Int → Nat → Nat
  | [], i => i
  | x :: rest, i => if x < first then i else is_sorted_until_loop x rest (i + 1)

/-- `std::is_sorted_until(first, last)` as an offset from `first`. -/
def std_is_sorted_until : List Int → Nat
  | [] => 0
  | x :: rest => is_sorted_until_loop x rest 1

/-- `UNumericBPLibrary::IsSortedUntil`, returning `(IsSorted, index)`. -/
def IsSortedUntil (A : List Int) : Bool × Int :=
  (decide (A.length ≤ 1) || IsSorted A, (std_is_sorted_until A : Int))

/-- `std::iota(first, last, value)`: `*first = value; ++value;` for each
position, the increment in `int32`. -/
def std_iota : List Int → Int → List Int
  | [], _ => []
  | _ :: rest, value => value :: std_iota rest (add32 value 1)

/-- `UNumericBPLibrary::Iota`. -/
def Iota (A : List Int) (Value : Int) : List Int :=
  let B := A
  std_iota B Value

/-- `UNumericBPLibrary::ArrayIsStrictlyIncreasing`: false at the first `i` with
`A[i - 1] >= A[i]`. -/
def ArrayIsStrictlyIncreasing : List Int → Bool
  | [] => true
  | [_] => true
  | a :: b :: rest => if a ≥ b then false else ArrayIsStrictlyIncreasing (b :: rest)

/-- `std::for_each(B.GetData(), B.GetData() + N, f)` with `f` writing through
its reference argument: `for (; first != last; ++first) f(*first);`. For
`0 ≤ N ≤ B.Num()` the first `N` elements are replaced. For `N < 0` the end
lies before the start, `first != last` stays true over the whole array, and
the loop goes on to the position `B.Num()`, past the array. -/
def std_for_each_prefix (f : Int → Int) (B : List Int) (N : Int) : Reads (List Int) :=
  if N < 0 then .pastEnd B.length
  else .done ((B.take N.toNat).map f ++ B.drop N.toNat)

/-- `UNumericBPLibrary::ClampN`: `N` is bounded from above only
(`FMath::Min(N, B.Num())`). -/
def ClampN (A : List Int) (Min Max N : Int) : Reads (List Int) :=
  let B := A
  let N1 := FMath_Min N (B.length : Int)
  std_for_each_prefix (fun Element => FMath_Clamp Element Min Max) B N1

/-- `UNumericBPLibrary::CopyArray`, as the return value together with the
arrays `A` and `B` after the call. `A` is a reference to const. -/
def CopyArray (A B : List Int) : Bool × List Int × List Int :=
  if A.length = B.length then (true, A, A) else (false, A, B)

/-- The constructor `TArray<int32>(Ptr, Count)` applied to `A.GetData() + start`:
a copy of the `Count` elements from offset `start`. -/
def TArray_from (A : List Int) (start Count : Nat) : List Int :=
  (A.drop start).take Count

/-- `UNumericBPLibrary::ArrayTake`. -/
def ArrayTake (A : List Int) (N : Int) : List Int :=
  let N1 := FMath_Clamp N 0 (A.length : Int)
  TArray_from A 0 N1.toNat

/-- `UNumericBPLibrary::ArrayDrop`. -/
def ArrayDrop (A : List Int) (N : Int) : List Int :=
  let N1 := FMath_Clamp N 0 (A.length : Int)
  TArray_from A N1.toNat ((A.length : Int) - N1).toNat

/-- `std::sample` on a forward range (selection sampling), after
`n = min(n, last - first)`:
`for (; n != 0; ++first) if (draw(0, --unsampled) < n) { *out++ = *first; --n; }`.
The random engine is the parameter `rng`: `rng s` is the number drawn when `s`
elements are still unsampled, a value of `[0, s)` by the contract of the
uniform distribution. The population shrinks at every step, so a function of
`s` describes every outcome of the engine. -/
def selection_sample (rng : Nat → Nat) : List Int → Nat → List Int
  | [], _ => []
  | x :: rest, n =>
    if n = 0 then []
    else if rng (rest.length + 1) < n then x :: selection_sample rng rest (n - 1)
    else selection_sample rng rest n

/-- `UNumericBPLibrary::Sample`, with the outcome of the random engine as the
parameter `rng`. The result is what `std::sample` writes to `B`. -/
def Sample (rng : Nat → Nat) (A : List Int) (N : Int) : List Int :=
  let N1 := FMath_Clamp N 0 (A.length : Int)
  selection_sample rng A (min N1.toNat A.length)

/-! ## Helper lemmas -/

/-- The C++ remainder by a positive length lies strictly between `-n` and `n`. -/
theorem tmod_bounds (a : Int) (n : Nat) (hn : 0 < n) :
    -(n : Int) < Int.tmod a n ∧ Int.tmod a n < n := by
  have hn' : (0 : Int) < n := by exact_mod_cast hn
  refine ⟨?_, Int.tmod_lt_of_pos a hn'⟩
  cases a with
  | ofNat m =>
    have := Int.tmod_nonneg (n : Int) (Int.ofNat_nonneg m)
    simp only [Int.ofNat_eq_coe] at *
    omega
  | negSucc m =>
    have h : Int.tmod (Int.negSucc m) (n : Int) = -(((m + 1) % n : Nat) : Int) := rfl
    rw [h]
    have := Nat.mod_lt (m + 1) hn
    omega

/-- The amount handed to `std::rotate` is the residue of `Amount` in `[0, n)`. -/
theorem normalized_amount (Amount : Int) (n : Nat) (hn : 0 < n) :
    (if Int.tmod Amount (n : Int) < 0 then (n : Int) + Int.tmod Amount (n : Int)
      else Int.tmod Amount (n : Int)) = Amount % (n : Int) := by
  have hn' : (0 : Int) < n := by exact_mod_cast hn
  have h1 := Int.tmod_add_tdiv Amount n
  obtain ⟨h2, h3⟩ := tmod_bounds Amount n hn
  split
  · have h := (@Int.ediv_emod_unique Amount n (n + Int.tmod Amount n) (Int.tdiv Amount n - 1) hn').2
      ⟨by rw [Int.mul_sub]; omega, by omega, by omega⟩
    exact h.2.symm
  · have h := (@Int.ediv_emod_unique Amount n (Int.tmod Amount n) (Int.tdiv Amount n) hn').2
      ⟨h1, by omega, h3⟩
    exact h.2.symm

/-- On a non-empty array `Rotate` is the left rotation by the residue of
`Amount` modulo the length. -/
theorem Rotate_eq_rotate (A : List Int) (Amount : Int) (hA : 0 < A.length) :
    Rotate A Amount = A.rotate (Amount % (A.length : Int)).toNat := by
  have hn' : (0 : Int) < A.length := by exact_mod_cast hA
  have h0 := Int.emod_nonneg Amount (ne_of_gt hn')
  have h1 := Int.emod_lt_of_pos Amount hn'
  unfold Rotate
  simp only [gt_iff_lt, hA, if_true]
  rw [normalized_amount Amount A.length hA, std_rotate]
  rw [List.rotate_eq_drop_append_take]
  omega

/-- `Rotate` keeps the empty array. -/
theorem Rotate_nil (Amount : Int) : Rotate [] Amount = [] := by
  simp [Rotate]

/-- The inner loop reports a match exactly when the pattern is a prefix of the
text at the candidate position. -/
theorem searchInner_matched_iff (as B : List Int) :
    searchInner as B = .matched ↔ B <+: as := by
  induction as generalizing B with
  | nil =>
    cases B with
    | nil => simp [searchInner]
    | cons b bs => simp [searchInner]
  | cons a as ih =>
    cases B with
    | nil => simp [searchInner]
    | cons b bs =>
      by_cases h : a = b
      · subst h
        simp [searchInner, ih, List.cons_prefix_cons]
      · have h' : ¬ b = a := fun e => h e.symm
        simp [searchInner, h, h', List.cons_prefix_cons]

/-- The inner loop runs out of text only when the text left is shorter than the
pattern. -/
theorem searchInner_exhausted (as B : List Int) (h : searchInner as B = .exhausted) :
    as.length < B.length := by
  induction as generalizing B with
  | nil =>
    cases B with
    | nil => simp [searchInner] at h
    | cons b bs => simp
  | cons a as ih =>
    cases B with
    | nil => simp [searchInner] at h
    | cons b bs =>
      by_cases hab : a = b
      · simp only [searchInner, hab, if_true] at h
        have := ih bs h
        simp only [List.length_cons]
        omega
      · simp [searchInner, hab] at h

/-- For a non-empty pattern `std_search` returns the offset of the first
occurrence, or the offset of `last` when there is none. -/
theorem std_search_spec (B : List Int) (hB : B ≠ []) (rest : List Int) (i : Nat) :
    (∃ k, k < rest.length ∧ B <+: rest.drop k ∧ (∀ j, j < k → ¬ B <+: rest.drop j) ∧
        std_search B rest i = i + k) ∨
      ((∀ j, ¬ B <+: rest.drop j) ∧ std_search B rest i = i + rest.length) := by
  induction rest generalizing i with
  | nil =>
    right
    refine ⟨fun j hj => ?_, by simp [std_search]⟩
    simp only [List.drop_nil, List.prefix_nil] at hj
    exact hB hj
  | cons a as ih =>
    cases hs : searchInner (a :: as) B with
    | matched =>
      left
      refine ⟨0, by simp, ?_, fun j hj => absurd hj (Nat.not_lt_zero j), by simp [std_search, hs]⟩
      simpa using (searchInner_matched_iff (a :: as) B).1 hs
    | exhausted =>
      right
      have hlt := searchInner_exhausted _ _ hs
      refine ⟨fun j hj => ?_, by simp [std_search, hs]⟩
      have h1 := hj.length_le
      have h2 : ((a :: as).drop j).length ≤ (a :: as).length := by
        rw [List.length_drop]; omega
      omega
    | differ =>
      have h0 : ¬ B <+: a :: as := by
        intro hp
        have := (searchInner_matched_iff (a :: as) B).2 hp
        rw [hs] at this
        cases this
      have hstep : std_search B (a :: as) i = std_search B as (i + 1) := by
        simp [std_search, hs]
      rcases ih (i + 1) with ⟨k, hk, hp, hmin, he⟩ | ⟨hnone, he⟩
      · left
        refine ⟨k + 1, by simpa using hk, by simpa using hp, fun j hj => ?_, by rw [hstep, he]; omega⟩
        cases j with
        | zero => simpa using h0
        | succ j => simpa using hmin j (by omega)
      · right
        refine ⟨fun j => ?_, by rw [hstep, he]; simp only [List.length_cons]; omega⟩
        cases j with
        | zero => simpa using h0
        | succ j => simpa using hnone j

/-- When the first range is not longer than the second, `std_mismatch` stays in
bounds: it returns the offset of the first difference, or the offset of `last1`
when the first range is a prefix of the second. -/
theorem std_mismatch_of_length_le (A B : List Int) (i : Nat) (h : A.length ≤ B.length) :
    (∃ k, k < A.length ∧ A[k]? ≠ B[k]? ∧ (∀ j, j < k → A[j]? = B[j]?) ∧
        std_mismatch A B i = .done (i + k)) ∨
      (A <+: B ∧ std_mismatch A B i = .done (i + A.length)) := by
  induction A generalizing B i with
  | nil => right; simp [std_mismatch]
  | cons a as ih =>
    cases B with
    | nil => simp at h
    | cons b bs =>
      have h' : as.length ≤ bs.length := by simpa using h
      by_cases hab : a = b
      · subst hab
        have hstep : std_mismatch (a :: as) (a :: bs) i = std_mismatch as bs (i + 1) := by
          simp [std_mismatch]
        rcases ih bs (i + 1) h' with ⟨k, hk, hne, hmin, he⟩ | ⟨hp, he⟩
        · left
          refine ⟨k + 1, by simpa using hk, by simpa using hne, fun j hj => ?_,
            by rw [hstep, he]; congr 1; omega⟩
          cases j with
          | zero => simp
          | succ j => simpa using hmin j (by omega)
        · right
          refine ⟨by simpa [List.cons_prefix_cons] using hp, ?_⟩
          rw [hstep, he]; simp only [List.length_cons]; congr 1; omega
      · left
        exact ⟨0, by simp, by simpa using hab, fun j hj => absurd hj (Nat.not_lt_zero j),
          by simp [std_mismatch, hab]⟩

/-- When the second range is shorter and is a prefix of the first, `std_mismatch`
dereferences the second range at its length. -/
theorem std_mismatch_pastEnd (A B : List Int) (i : Nat) (hlen : B.length < A.length)
    (hpre : B <+: A) : std_mismatch A B i = .pastEnd (i + B.length) := by
  induction B generalizing A i with
  | nil =>
    cases A with
    | nil => simp at hlen
    | cons a as => simp [std_mismatch]
  | cons b bs ih =>
    cases A with
    | nil => simp at hlen
    | cons a as =>
      rw [List.cons_prefix_cons] at hpre
      obtain ⟨hab, hp⟩ := hpre
      subst hab
      have := ih as (i + 1) (by simpa using hlen) hp
      simp only [std_mismatch, if_true, this, List.length_cons]
      congr 1; omega

/-- On ranges of equal length `std_equal` stays in bounds and decides equality. -/
theorem std_equal_of_length_eq (A B : List Int) (i : Nat) (h : A.length = B.length) :
    std_equal A B i = .done (decide (A = B)) := by
  induction A generalizing B i with
  | nil =>
    cases B with
    | nil => simp [std_equal]
    | cons b bs => simp at h
  | cons a as ih =>
    cases B with
    | nil => simp at h
    | cons b bs =>
      by_cases hab : a = b
      · subst hab
        simp [std_equal, ih bs (i + 1) (by simpa using h)]
      · simp [std_equal, hab]

/-- `ArrayIsEqual` never reads out of bounds and decides equality of the arrays. -/
theorem ArrayIsEqual_eq (A B : List Int) : ArrayIsEqual A B = .done (decide (A = B)) := by
  unfold ArrayIsEqual
  split
  · next h => exact std_equal_of_length_eq A B 0 h
  · next h =>
    have : A ≠ B := fun e => h (by rw [e])
    simp [this]

/-- `Algo_IsSorted` holds exactly for ascending lists. -/
theorem Algo_IsSorted_iff (A : List Int) :
    Algo_IsSorted A = true ↔ A.Sorted (· ≤ ·) := by
  induction A with
  | nil => simp [Algo_IsSorted]
  | cons a as ih =>
    cases as with
    | nil => simp [Algo_IsSorted]
    | cons b rest =>
      rw [List.sorted_cons]
      by_cases hba : b < a
      · simp only [Algo_IsSorted, hba, if_true, Bool.false_eq_true, false_iff, not_and]
        intro hall
        have := hall b (by simp)
        omega
      · simp only [Algo_IsSorted, hba, if_false, ih]
        refine ⟨fun hs => ⟨fun c hc => ?_, hs⟩, fun hs => hs.2⟩
        rcases List.mem_cons.1 hc with rfl | hc'
        · omega
        · have := (List.sorted_cons.1 hs).1 c hc'
          omega

/-- `IsSorted` holds exactly for ascending lists. -/
theorem IsSorted_iff (A : List Int) : IsSorted A = true ↔ A.Sorted (· ≤ ·) := by
  unfold IsSorted
  rw [Bool.or_eq_true, decide_eq_true_eq, Algo_IsSorted_iff]
  refine ⟨fun h => ?_, fun h => Or.inr h⟩
  rcases h with h | h
  · match A, h with
    | [], _ => simp
    | [_], _ => simp
    | _ :: _ :: _, h => simp at h
  · exact h

/-- Sorting leaves a list unchanged exactly when it is ascending. -/
theorem insertionSort_eq_self_iff (A : List Int) :
    A.insertionSort (· ≤ ·) = A ↔ A.Sorted (· ≤ ·) :=
  ⟨fun h => h ▸ List.sorted_insertionSort (· ≤ ·) A, fun h => h.insertionSort_eq⟩

/-- Skipping the common prefix of two rearrangements of each other leaves two
rearrangements of each other. -/
theorem skipCommonPrefix_perm (A B : List Int) (h : A.Perm B) :
    (skipCommonPrefix A B).1.Perm (skipCommonPrefix A B).2 := by
  induction A generalizing B with
  | nil => simpa [skipCommonPrefix] using h
  | cons a as ih =>
    cases B with
    | nil => exact absurd h.length_eq (by simp)
    | cons b bs =>
      by_cases hab : a = b
      · subst hab
        simpa [skipCommonPrefix] using ih bs h.cons_inv
      · simpa [skipCommonPrefix, hab] using h

/-- The counting loop accepts when the first range is a rearrangement of the
second. -/
theorem permLoop_of_perm (dB rest seen : List Int) (h : (seen ++ rest).Perm dB) :
    permLoop dB seen rest = true := by
  induction rest generalizing seen with
  | nil => simp [permLoop]
  | cons x rest ih =>
    have hnext : permLoop dB (seen ++ [x]) rest = true := ih (seen ++ [x]) (by simpa using h)
    unfold permLoop
    split
    · exact hnext
    · next hx =>
      have hc : dB.count x = seen.count x + (x :: rest).count x := by
        rw [← h.count_eq x, List.count_append]
      have h0 : seen.count x = 0 := List.count_eq_zero_of_not_mem hx
      have h1 : 0 < (x :: rest).count x := by simp
      have hcond : ¬ (dB.count x = 0 ∨ (x :: rest).count x ≠ dB.count x) := by omega
      rw [if_neg hcond]
      exact hnext

/-- `IsPermutation` stays in bounds and returns true on rearrangements. -/
theorem IsPermutation_of_perm (A B : List Int) (h : A.Perm B) :
    IsPermutation A B = .done true := by
  have hlen := h.length_eq
  have hnlt : ¬ B.length < A.length := by omega
  have htake : B.take A.length = B := by rw [hlen, List.take_length]
  unfold IsPermutation std_is_permutation
  rw [if_pos hlen, if_neg hnlt]
  simp only [htake]
  congr 1
  exact permLoop_of_perm _ _ [] (by simpa using skipCommonPrefix_perm A B h)

/-- Reducing an intermediate sum to `int32` does not change the reduced total. -/
theorem wrap32_add_left (a b : Int) : wrap32 (wrap32 a + b) = wrap32 (a + b) := by
  unfold wrap32; omega

/-- An `int32` value is its own reduction. -/
theorem wrap32_of_isInt32 (x : Int) (h : isInt32 x) : wrap32 x = x := by
  unfold isInt32 at h; unfold wrap32; omega

/-- A reduced value is an `int32`. -/
theorem wrap32_isInt32 (x : Int) : isInt32 (wrap32 x) := by
  unfold isInt32 wrap32; omega

/-- `std_accumulate` is the left fold of `int32` addition. -/
theorem std_accumulate_eq_foldl (A : List Int) (init : Int) :
    std_accumulate A init = A.foldl add32 init := by
  induction A generalizing init with
  | nil => rfl
  | cons x rest ih => simp [std_accumulate, ih]

/-- From an `int32` seed, `std_accumulate` is the exact sum reduced to `int32`. -/
theorem std_accumulate_eq_wrap (A : List Int) (init : Int) (h : isInt32 init) :
    std_accumulate A init = wrap32 (init + A.sum) := by
  induction A generalizing init with
  | nil => simp [std_accumulate, wrap32_of_isInt32 init h]
  | cons x rest ih =>
    rw [std_accumulate, add32, ih _ (wrap32_isInt32 _), wrap32_add_left, List.sum_cons]
    congr 1; omega

/-- From seed `0`, `std_accumulate` is the sum of the list reduced to `int32`. -/
theorem std_accumulate_zero (A : List Int) : std_accumulate A 0 = wrap32 A.sum := by
  rw [std_accumulate_eq_wrap A 0 (by decide)]; simp

/-- The loop of `std::partial_sum` writes one element per element read. -/
theorem partialSumLoop_length (s : Int) (l : List Int) :
    (partialSumLoop s l).length = l.length := by
  induction l generalizing s with
  | nil => rfl
  | cons x rest ih => simp [partialSumLoop, ih]

/-- `std_partial_sum` keeps the length. -/
theorem std_partial_sum_length (l : List Int) : (std_partial_sum l).length = l.length := by
  cases l with
  | nil => rfl
  | cons x rest => simp [std_partial_sum, partialSumLoop_length]

/-- Element `i` written by the loop is the running sum plus the first `i + 1`
elements, reduced to `int32`. -/
theorem partialSumLoop_getElem? (s : Int) (l : List Int) (i : Nat) (hi : i < l.length) :
    (partialSumLoop s l)[i]? = some (wrap32 (s + (l.take (i + 1)).sum)) := by
  induction l generalizing s i with
  | nil => simp at hi
  | cons x rest ih =>
    cases i with
    | zero => simp [partialSumLoop, add32]
    | succ i =>
      have hi' : i < rest.length := by simpa using hi
      simp only [partialSumLoop, List.getElem?_cons_succ, ih _ i hi', add32, wrap32_add_left,
        List.take_succ_cons, List.sum_cons]
      congr 2; omega

/-- Element `i` of `std_partial_sum` is the sum of the first `i + 1` elements
reduced to `int32`. -/
theorem std_partial_sum_getElem? (l : List Int) (h32 : ∀ x ∈ l, isInt32 x) (i : Nat)
    (hi : i < l.length) :
    (std_partial_sum l)[i]? = some (wrap32 ((l.take (i + 1)).sum)) := by
  cases l with
  | nil => simp at hi
  | cons x rest =>
    cases i with
    | zero =>
      simp [std_partial_sum, wrap32_of_isInt32 x (h32 x (by simp))]
    | succ i =>
      have hi' : i < rest.length := by simpa using hi
      simp only [std_partial_sum, List.getElem?_cons_succ, partialSumLoop_getElem? x rest i hi',
        List.take_succ_cons, List.sum_cons]

/-- Without overflow the running sums of non-negative values never go down. -/
theorem ArrayIsIncreasing_partialSumLoop (s : Int) (l : List Int) (hs : 0 ≤ s)
    (hnn : ∀ x ∈ l, 0 ≤ x) (hsum : s + l.sum ≤ 2147483647) :
    ArrayIsIncreasing (s :: partialSumLoop s l) = true := by
  induction l generalizing s with
  | nil => simp [partialSumLoop, ArrayIsIncreasing]
  | cons x rest ih =>
    have hx : 0 ≤ x := hnn x (by simp)
    have hrest : ∀ y ∈ rest, 0 ≤ y := fun y hy => hnn y (by simp [hy])
    have hrs : 0 ≤ rest.sum := List.sum_nonneg hrest
    rw [List.sum_cons] at hsum
    have hadd : add32 s x = s + x := by
      unfold add32 wrap32; omega
    have hle : ¬ s > s + x := by omega
    simp only [partialSumLoop, hadd, ArrayIsIncreasing, hle, if_false]
    have := ih (s + x) (by omega) hrest (by omega)
    simpa [hadd] using this

/-- The loop of `std::max_element` ends on an element that bounds all from above. -/
theorem max_element_loop_spec (largest : Int) (l : List Int) :
    max_element_loop largest l ∈ largest :: l ∧
      ∀ x ∈ largest :: l, x ≤ max_element_loop largest l := by
  induction l generalizing largest with
  | nil => simp [max_element_loop]
  | cons y rest ih =>
    unfold max_element_loop
    split
    · next h =>
      obtain ⟨h1, h2⟩ := ih y
      refine ⟨List.mem_cons_of_mem _ h1, fun x hx => ?_⟩
      rcases List.mem_cons.1 hx with rfl | hx
      · have := h2 y (by simp); omega
      · exact h2 x hx
    · next h =>
      obtain ⟨h1, h2⟩ := ih largest
      refine ⟨?_, fun x hx => ?_⟩
      · rcases List.mem_cons.1 h1 with h1 | h1
        · simp [h1]
        · simp [h1]
      · rcases List.mem_cons.1 hx with rfl | hx
        · exact h2 _ (by simp)
        · rcases List.mem_cons.1 hx with rfl | hx
          · have := h2 largest (by simp); omega
          · exact h2 x (by simp [hx])

/-- The loop of `std::min_element` ends on an element that bounds all from below. -/
theorem min_element_loop_spec (smallest : Int) (l : List Int) :
    min_element_loop smallest l ∈ smallest :: l ∧
      ∀ x ∈ smallest :: l, min_element_loop smallest l ≤ x := by
  induction l generalizing smallest with
  | nil => simp [min_element_loop]
  | cons y rest ih =>
    unfold min_element_loop
    split
    · next h =>
      obtain ⟨h1, h2⟩ := ih y
      refine ⟨List.mem_cons_of_mem _ h1, fun x hx => ?_⟩
      rcases List.mem_cons.1 hx with rfl | hx
      · have := h2 y (by simp); omega
      · exact h2 x hx
    · next h =>
      obtain ⟨h1, h2⟩ := ih smallest
      refine ⟨?_, fun x hx => ?_⟩
      · rcases List.mem_cons.1 h1 with h1 | h1
        · simp [h1]
        · simp [h1]
      · rcases List.mem_cons.1 hx with rfl | hx
        · exact h2 _ (by simp)
        · rcases List.mem_cons.1 hx with rfl | hx
          · have := h2 smallest (by simp); omega
          · exact h2 x (by simp [hx])

/-- Clamping into `[0, n]` is `max 0 (min N n)` and lands in `[0, n]`. -/
theorem FMath_Clamp_length (N : Int) (n : Nat) :
    FMath_Clamp N 0 (n : Int) = max 0 (min N (n : Int)) ∧
      0 ≤ FMath_Clamp N 0 (n : Int) ∧ FMath_Clamp N 0 (n : Int) ≤ n := by
  unfold FMath_Clamp FMath_Max FMath_Min
  split <;> split <;> omega

/-- `skipCommonPrefix` removes the same leading part from both ranges. -/
theorem skipCommonPrefix_decomp (A B : List Int) :
    ∃ c, A = c ++ (skipCommonPrefix A B).1 ∧ B = c ++ (skipCommonPrefix A B).2 := by
  induction A generalizing B with
  | nil => exact ⟨[], by simp [skipCommonPrefix]⟩
  | cons a as ih =>
    cases B with
    | nil => exact ⟨[], by simp [skipCommonPrefix]⟩
    | cons b bs =>
      by_cases hab : a = b
      · subst hab
        obtain ⟨c, h1, h2⟩ := ih bs
        refine ⟨a :: c, ?_, ?_⟩
        · simp only [skipCommonPrefix, if_true, List.cons_append]; rw [← h1]
        · simp only [skipCommonPrefix, if_true, List.cons_append]; rw [← h2]
      · exact ⟨[], by simp [skipCommonPrefix, hab]⟩

/-- When the counting loop accepts, every value of the first range not met
before occurs as often in the rest of the first range as in the second range. -/
theorem permLoop_true_count (dB rest seen : List Int) (h : permLoop dB seen rest = true) :
    ∀ x ∈ rest, x ∉ seen → rest.count x = dB.count x := by
  induction rest generalizing seen with
  | nil => intro x hx; simp at hx
  | cons y rest ih =>
    intro x hx hxs
    unfold permLoop at h
    by_cases hy : y ∈ seen
    · rw [if_pos hy] at h
      have hxy : x ≠ y := fun e => hxs (e ▸ hy)
      have hxr : x ∈ rest := by
        rcases List.mem_cons.1 hx with e | e
        · exact absurd e hxy
        · exact e
      have := ih (seen ++ [y]) h x hxr (by simp [hxs, hxy])
      rw [List.count_cons_of_ne hxy]
      exact this
    · rw [if_neg hy] at h
      by_cases hc : dB.count y = 0 ∨ (y :: rest).count y ≠ dB.count y
      · rw [if_pos hc] at h; cases h
      · rw [if_neg hc] at h
        by_cases hxy : x = y
        · subst hxy
          omega
        · have hxr : x ∈ rest := by
            rcases List.mem_cons.1 hx with e | e
            · exact absurd e hxy
            · exact e
          have := ih (seen ++ [y]) h x hxr (by simp [hxs, hxy])
          rw [List.count_cons_of_ne hxy]
          exact this

/-- `IsPermutation` always returns, and returns true exactly on rearrangements. -/
theorem IsPermutation_done (A B : List Int) :
    ∃ b, IsPermutation A B = .done b ∧ (b = true ↔ A.Perm B) := by
  by_cases hlen : A.length = B.length
  · have hnlt : ¬ B.length < A.length := by omega
    have htake : B.take A.length = B := by rw [hlen, List.take_length]
    refine ⟨permLoop (skipCommonPrefix A B).2 [] (skipCommonPrefix A B).1, ?_, ?_⟩
    · unfold IsPermutation std_is_permutation
      rw [if_pos hlen, if_neg hnlt]
      simp only [htake]
    · refine ⟨fun h => ?_, fun h =>
        permLoop_of_perm _ _ [] (by simpa using skipCommonPrefix_perm A B h)⟩
      obtain ⟨c, hA, hB⟩ := skipCommonPrefix_decomp A B
      have hcount := permLoop_true_count _ _ [] h
      have hsub : (skipCommonPrefix A B).1.Subperm (skipCommonPrefix A B).2 :=
        List.subperm_ext_iff.2 fun x hx => le_of_eq (hcount x hx (by simp))
      have hl : (skipCommonPrefix A B).2.length ≤ (skipCommonPrefix A B).1.length := by
        have h1 := congrArg List.length hA
        have h2 := congrArg List.length hB
        rw [List.length_append] at h1 h2
        omega
      have hp := hsub.perm_of_length_le hl
      have hfin := hp.append_left c
      rw [← hA, ← hB] at hfin
      exact hfin
  · refine ⟨false, by simp [IsPermutation, hlen], ?_⟩
    simp only [Bool.false_eq_true, false_iff]
    exact fun hp => hlen hp.length_eq

/-- The backward scan either runs through the whole range, which is then ordered,
or stops at a pivot `p` after a non-empty ordered part whose last element is
above `p`. -/
theorem sortedRun_cases (lt : Int → Int → Bool) (l : List Int) :
    (List.Chain' (fun x y => lt y x = false) l ∧ sortedRun lt l = (l, [])) ∨
      ∃ run p rest, l = run ++ p :: rest ∧ run ≠ [] ∧
        List.Chain' (fun x y => lt y x = false) run ∧
        (∀ x, run.getLast? = some x → lt p x = true) ∧
        sortedRun lt l = (run, p :: rest) := by
  induction l with
  | nil => left; simp [sortedRun]
  | cons x t ih =>
    cases t with
    | nil => left; simp [sortedRun]
    | cons y t =>
      by_cases hyx : lt y x = true
      · right
        refine ⟨[x], y, t, by simp, by simp, by simp, ?_, by simp [sortedRun, hyx]⟩
        intro z hz
        simp only [List.getLast?_singleton, Option.some.injEq] at hz
        rw [← hz]; exact hyx
      · have hyx' : lt y x = false := by simpa using hyx
        rcases ih with ⟨hc, hs⟩ | ⟨run, p, rest, hl, hne, hc, hlast, hs⟩
        · left
          refine ⟨List.chain'_cons.2 ⟨hyx', hc⟩, ?_⟩
          simp [sortedRun, hyx', hs]
        · right
          refine ⟨x :: run, p, rest, by rw [hl]; rfl, by simp, ?_, ?_, ?_⟩
          · cases run with
            | nil => exact absurd rfl hne
            | cons z r =>
              have hz : y = z := by
                have := congrArg List.head? hl
                simpa using this
              subst hz
              exact List.chain'_cons.2 ⟨hyx', hc⟩
          · intro z hz
            cases run with
            | nil => exact absurd rfl hne
            | cons w r =>
              rw [List.getLast?_cons_cons] at hz
              exact hlast z hz
          · simp [sortedRun, hyx', hs]

/-- The second scan swaps the pivot with the first element above it. -/
theorem swapPivot_eq (lt : Int → Int → Bool) (p q : Int) (u v : List Int)
    (hu : ∀ x ∈ u, lt p x = false) (hq : lt p q = true) :
    swapPivot lt p (u ++ q :: v) = (q, u ++ p :: v) := by
  induction u with
  | nil => simp [swapPivot, hq]
  | cons x u ih =>
    have hx : lt p x = false := hu x (by simp)
    have := ih (fun y hy => hu y (by simp [hy]))
    simp [swapPivot, hx, this]

/-- A list with an element above `p` splits at its first such element. -/
theorem first_above_split (lt : Int → Int → Bool) (p : Int) (run : List Int)
    (h : ∃ x ∈ run, lt p x = true) :
    ∃ u q v, run = u ++ q :: v ∧ (∀ x ∈ u, lt p x = false) ∧ lt p q = true := by
  induction run with
  | nil => obtain ⟨x, hx, _⟩ := h; simp at hx
  | cons y t ih =>
    by_cases hy : lt p y = true
    · exact ⟨[], y, t, by simp, by simp, hy⟩
    · have hy' : lt p y = false := by simpa using hy
      obtain ⟨x, hx, hpx⟩ := h
      have hxt : x ∈ t := by
        rcases List.mem_cons.1 hx with e | e
        · subst e; rw [hpx] at hy'; cases hy'
        · exact e
      obtain ⟨u, q, v, hrun, hu, hq⟩ := ih ⟨x, hxt, hpx⟩
      refine ⟨y :: u, q, v, by rw [hrun]; rfl, fun z hz => ?_, hq⟩
      rcases List.mem_cons.1 hz with e | e
      · subst e; exact hy'
      · exact hu z e

/-- For a strict total order, "not below" is transitive. -/
theorem not_lt_trans (lt : Int → Int → Bool)
    (htrans : ∀ a b c, lt a b = true → lt b c = true → lt a c = true)
    (htri : ∀ a b, lt a b = false → lt b a = false → a = b)
    (a b c : Int) (h1 : lt b a = false) (h2 : lt c b = false) : lt c a = false := by
  by_contra hca
  have hca' : lt c a = true := by simpa using hca
  by_cases hab : lt a b = true
  · have := htrans c a b hca' hab
    rw [this] at h2; cases h2
  · have hab' : lt a b = false := by simpa using hab
    have e := htri a b hab' h1
    subst e
    rw [hca'] at h2; cases h2

/-- In an ordered part no later element is below the first. -/
theorem chain_head_le (lt : Int → Int → Bool)
    (htrans : ∀ a b c, lt a b = true → lt b c = true → lt a c = true)
    (htri : ∀ a b, lt a b = false → lt b a = false → a = b)
    (q : Int) (v : List Int) (hc : List.Chain' (fun x y => lt y x = false) (q :: v)) :
    ∀ x ∈ v, lt x q = false := by
  induction v generalizing q with
  | nil => intro x hx; simp at hx
  | cons y t ih =>
    intro x hx
    obtain ⟨hqy, hct⟩ := List.chain'_cons.1 hc
    rcases List.mem_cons.1 hx with e | e
    · subst e; exact hqy
    · exact not_lt_trans lt htrans htri q y x hqy (ih y hct x e)

/-- The scan stops exactly at the end of an ordered part followed by a pivot
below its last element. -/
theorem sortedRun_eq (lt : Int → Int → Bool) (run : List Int) (p : Int) (rest : List Int)
    (hne : run ≠ []) (hc : List.Chain' (fun x y => lt y x = false) run)
    (hlast : ∀ x, run.getLast? = some x → lt p x = true) :
    sortedRun lt (run ++ p :: rest) = (run, p :: rest) := by
  induction run with
  | nil => exact absurd rfl hne
  | cons x r ih =>
    cases r with
    | nil =>
      have hpx : lt p x = true := hlast x rfl
      simp [sortedRun, hpx]
    | cons y r =>
      obtain ⟨hyx, hc'⟩ := List.chain'_cons.1 hc
      have := ih (by simp) hc' (fun z hz => hlast z (by rw [List.getLast?_cons_cons]; exact hz))
      simp only [List.cons_append] at this ⊢
      simp [sortedRun, hyx, this]

/-- The result of a permutation step on a range given with its pivot, its
ordered tail and the place of the swap. -/
theorem permutationStep_compute (lt : Int → Int → Bool) (p q : Int) (u v rest : List Int)
    (hc : List.Chain' (fun x y => lt y x = false) (u ++ q :: v))
    (hlast : ∀ x, (u ++ q :: v).getLast? = some x → lt p x = true)
    (hu : ∀ x ∈ u, lt p x = false) (hq : lt p q = true) :
    permutationStep lt (rest.reverse ++ p :: (u ++ q :: v).reverse)
      = rest.reverse ++ q :: (u ++ p :: v) := by
  have hrev : (rest.reverse ++ p :: (u ++ q :: v).reverse).reverse
      = (u ++ q :: v) ++ p :: rest := by
    simp
  have hs := sortedRun_eq lt (u ++ q :: v) p rest (by simp) hc hlast
  unfold permutationStep
  rw [hrev, hs]
  simp only [swapPivot_eq lt p q u v hu hq]

/-- When the scan finds a pivot, the range and the result of the step have the
same part before the pivot, and the tail is ordered before and after the swap. -/
theorem permutationStep_analysis (lt : Int → Int → Bool)
    (htrans : ∀ a b c, lt a b = true → lt b c = true → lt a c = true)
    (htri : ∀ a b, lt a b = false → lt b a = false → a = b)
    (A : List Int) (h : (sortedRun lt A.reverse).2 ≠ []) :
    ∃ (u : List Int) (q : Int) (v : List Int) (p : Int) (rest : List Int),
      A = rest.reverse ++ p :: (u ++ q :: v).reverse ∧
      permutationStep lt A = rest.reverse ++ q :: (u ++ p :: v) ∧
      List.Chain' (fun x y => lt y x = false) (u ++ q :: v) ∧
      List.Chain' (fun x y => lt y x = false) (u ++ p :: v) ∧
      (∀ x ∈ u, lt p x = false) ∧ lt p q = true ∧
      (∀ x ∈ v, lt x q = false) ∧ (∀ x ∈ u, lt x q = true) := by
  rcases sortedRun_cases lt A.reverse with ⟨_, hs⟩ | ⟨run, p, rest, hl, hne, hc, hlast, hs⟩
  · rw [hs] at h; exact absurd rfl h
  · obtain ⟨xl, hxl⟩ : ∃ x, run.getLast? = some x := by
      cases hg : run.getLast? with
      | none => simp at hg; exact absurd hg hne
      | some x => exact ⟨x, rfl⟩
    obtain ⟨u, q, v, hrun, hu, hq⟩ := first_above_split lt p run
      ⟨xl, List.mem_of_getLast?_eq_some hxl, hlast xl hxl⟩
    subst hrun
    have hA : A = rest.reverse ++ p :: (u ++ q :: v).reverse := by
      have := congrArg List.reverse hl
      simpa using this
    obtain ⟨hcu, hcqv, hjoin⟩ := List.chain'_append.1 hc
    have hv : ∀ x ∈ v, lt x q = false := chain_head_le lt htrans htri q v hcqv
    have huq : ∀ x ∈ u, lt x q = true := by
      intro x hx
      by_cases hxp : lt x p = true
      · exact htrans x p q hxp hq
      · have hxp' : lt x p = false := by simpa using hxp
        have e := htri x p hxp' (hu x hx)
        rw [e]; exact hq
    have hcpv : List.Chain' (fun x y => lt y x = false) (p :: v) := by
      rw [List.chain'_cons'] at hcqv ⊢
      refine ⟨fun y hy => ?_, hcqv.2⟩
      have hyq := hcqv.1 y hy
      by_contra hyp
      have hyp' : lt y p = true := by simpa using hyp
      rw [htrans y p q hyp' hq] at hyq
      cases hyq
    have hcupv : List.Chain' (fun x y => lt y x = false) (u ++ p :: v) := by
      refine List.chain'_append.2 ⟨hcu, hcpv, fun x hx y hy => ?_⟩
      simp only [List.head?_cons, Option.mem_def, Option.some.injEq] at hy
      subst hy
      exact hu x (List.mem_of_getLast?_eq_some hx)
    refine ⟨u, q, v, p, rest, hA, ?_, hc, hcupv, hu, hq, hv, huq⟩
    rw [hA]
    exact permutationStep_compute lt p q u v rest hc hlast hu hq

/-- A permutation step that finds a pivot rearranges the range. -/
theorem permutationStep_perm (lt : Int → Int → Bool)
    (htrans : ∀ a b c, lt a b = true → lt b c = true → lt a c = true)
    (htri : ∀ a b, lt a b = false → lt b a = false → a = b)
    (A : List Int) (h : (sortedRun lt A.reverse).2 ≠ []) :
    (permutationStep lt A).Perm A := by
  obtain ⟨u, q, v, p, rest, hA, hN, -⟩ := permutationStep_analysis lt htrans htri A h
  rw [hN]
  conv_rhs => rw [hA]
  refine List.Perm.append_left _ ?_
  have h1 : (p :: (u ++ q :: v).reverse).Perm (p :: (u ++ q :: v)) :=
    (List.reverse_perm _).cons p
  have h2 : (p :: (u ++ q :: v)).Perm (q :: (u ++ p :: v)) := by
    have a1 : (p :: (u ++ q :: v)).Perm (p :: q :: (u ++ v)) := List.perm_middle.cons p
    have a2 : (q :: (u ++ p :: v)).Perm (q :: p :: (u ++ v)) := List.perm_middle.cons q
    exact a1.trans ((List.Perm.swap q p _).trans a2.symm)
  exact (h1.trans h2).symm

/-- After a permutation step that finds a pivot, the step with the comparison
reversed gives the range back. -/
theorem permutationStep_round_trip (lt : Int → Int → Bool)
    (htrans : ∀ a b c, lt a b = true → lt b c = true → lt a c = true)
    (htri : ∀ a b, lt a b = false → lt b a = false → a = b)
    (A : List Int) (h : (sortedRun lt A.reverse).2 ≠ []) :
    permutationStep (fun a b => lt b a) (permutationStep lt A) = A := by
  obtain ⟨u, q, v, p, rest, hA, hN, _, hcupv, hu, hq, hv, huq⟩ :=
    permutationStep_analysis lt htrans htri A h
  have hrev : u ++ p :: v = (v.reverse ++ p :: u.reverse).reverse := by simp
  have hrev' : v.reverse ++ p :: u.reverse = (u ++ p :: v).reverse := by simp
  rw [hN, hrev]
  rw [permutationStep_compute (fun a b => lt b a) q p v.reverse u.reverse rest]
  · rw [hA]; simp
  · rw [hrev', List.chain'_reverse]
    exact hcupv
  · intro x hx
    rw [hrev', List.getLast?_reverse] at hx
    have hxm : x ∈ u ++ p :: v := List.mem_of_mem_head? hx
    cases u with
    | nil =>
      simp only [List.nil_append, List.head?_cons, Option.some.injEq] at hx
      rw [← hx]; exact hq
    | cons y u =>
      simp only [List.cons_append, List.head?_cons, Option.some.injEq] at hx
      rw [← hx]; exact huq y (by simp)
  · intro x hx
    exact hv x (List.mem_reverse.1 hx)
  · exact hq

/-- `ArrayIsDecreasing` holds exactly when no element is followed by a larger one. -/
theorem ArrayIsDecreasing_iff (A : List Int) :
    ArrayIsDecreasing A = true ↔ List.Chain' (fun a b => decide (a < b) = false) A := by
  induction A with
  | nil => simp [ArrayIsDecreasing]
  | cons a t ih =>
    cases t with
    | nil => simp [ArrayIsDecreasing]
    | cons b t =>
      rw [List.chain'_cons, ← ih]
      by_cases hab : a < b
      · simp [ArrayIsDecreasing, hab]
      · simp [ArrayIsDecreasing, hab]

/-- `ArrayIsIncreasing` holds exactly when no element is followed by a smaller one. -/
theorem ArrayIsIncreasing_iff (A : List Int) :
    ArrayIsIncreasing A = true ↔ List.Chain' (fun a b => decide (b < a) = false) A := by
  induction A with
  | nil => simp [ArrayIsIncreasing]
  | cons a t ih =>
    cases t with
    | nil => simp [ArrayIsIncreasing]
    | cons b t =>
      rw [List.chain'_cons, ← ih]
      by_cases hab : b < a
      · simp [ArrayIsIncreasing, hab]
      · simp [ArrayIsIncreasing, hab]

/-- On an array that is not non-increasing the scan of `next_permutation` finds a
pivot. -/
theorem sortedRun_next_ne_nil (A : List Int) (h : ArrayIsDecreasing A = false) :
    (sortedRun (fun a b => decide (a < b)) A.reverse).2 ≠ [] := by
  intro hnil
  rcases sortedRun_cases (fun a b => decide (a < b)) A.reverse with ⟨hc, _⟩ |
    ⟨run, p, rest, _, _, _, _, hs⟩
  · rw [List.chain'_reverse] at hc
    have := (ArrayIsDecreasing_iff A).2 hc
    rw [this] at h; cases h
  · rw [hs] at hnil; cases hnil

/-- On an array that is not non-decreasing the scan of `prev_permutation` finds a
pivot. -/
theorem sortedRun_prev_ne_nil (A : List Int) (h : ArrayIsIncreasing A = false) :
    (sortedRun (fun a b => decide (b < a)) A.reverse).2 ≠ [] := by
  intro hnil
  rcases sortedRun_cases (fun a b => decide (b < a)) A.reverse with ⟨hc, _⟩ |
    ⟨run, p, rest, _, _, _, _, hs⟩
  · rw [List.chain'_reverse] at hc
    have := (ArrayIsIncreasing_iff A).2 hc
    rw [this] at h; cases h
  · rw [hs] at hnil; cases hnil

/-- The comparison of `next_permutation` is transitive. -/
theorem lt_next_trans (a b c : Int) (h1 : decide (a < b) = true) (h2 : decide (b < c) = true) :
    decide (a < c) = true := by
  simp only [decide_eq_true_eq] at *; omega

/-- The comparison of `next_permutation` is total. -/
theorem lt_next_tri (a b : Int) (h1 : decide (a < b) = false) (h2 : decide (b < a) = false) :
    a = b := by
  simp only [decide_eq_false_iff_not] at *; omega

/-- The comparison of `prev_permutation` is transitive. -/
theorem lt_prev_trans (a b c : Int) (h1 : decide (b < a) = true) (h2 : decide (c < b) = true) :
    decide (c < a) = true := by
  simp only [decide_eq_true_eq] at *; omega

/-- The comparison of `prev_permutation` is total. -/
theorem lt_prev_tri (a b : Int) (h1 : decide (b < a) = false) (h2 : decide (a < b) = false) :
    a = b := by
  simp only [decide_eq_false_iff_not] at *; omega

/-- An array that is not non-increasing has at least two elements. -/
theorem length_of_not_decreasing (A : List Int) (h : ArrayIsDecreasing A = false) :
    1 < A.length := by
  match A, h with
  | [], h => simp [ArrayIsDecreasing] at h
  | [_], h => simp [ArrayIsDecreasing] at h
  | _ :: _ :: _, _ => simp

/-- An array that is not non-decreasing has at least two elements. -/
theorem length_of_not_increasing (A : List Int) (h : ArrayIsIncreasing A = false) :
    1 < A.length := by
  match A, h with
  | [], h => simp [ArrayIsIncreasing] at h
  | [_], h => simp [ArrayIsIncreasing] at h
  | _ :: _ :: _, _ => simp

/-- On an array that is not non-increasing `NextPermutation` runs the step. -/
theorem NextPermutation_eq (A : List Int) (h : ArrayIsDecreasing A = false) :
    NextPermutation A = permutationStep (fun a b => decide (a < b)) A := by
  have := length_of_not_decreasing A h
  simp [NextPermutation, std_next_permutation, this]

/-- On an array that is not non-decreasing `PrevPermutation` runs the step. -/
theorem PrevPermutation_eq (A : List Int) (h : ArrayIsIncreasing A = false) :
    PrevPermutation A = permutationStep (fun a b => decide (b < a)) A := by
  have := length_of_not_increasing A h
  simp [PrevPermutation, std_prev_permutation, this]

/-- When the comparison of two non-empty ranges is true, the first heads are in
order, and with equal heads the comparison of the tails is true. -/
theorem slc_cons_cons (a b : Int) (as bs : List Int)
    (h : std_lexicographical_compare (a :: as) (b :: bs) = true) :
    a ≤ b ∧ (a = b → std_lexicographical_compare as bs = true) := by
  unfold std_lexicographical_compare at h
  by_cases h1 : a < b
  · exact ⟨by omega, fun e => by omega⟩
  · rw [if_neg h1] at h
    by_cases h2 : b < a
    · rw [if_pos h2] at h; cases h
    · rw [if_neg h2] at h
      exact ⟨by omega, fun _ => h⟩

/-- A common leading part does not change the comparison. -/
theorem slc_append_left (pre x y : List Int) :
    std_lexicographical_compare (pre ++ x) (pre ++ y) = std_lexicographical_compare x y := by
  induction pre with
  | nil => rfl
  | cons a pre ih => simp [std_lexicographical_compare, ih]

/-- A range lexicographically between two ranges that share a leading part
shares it too. -/
theorem slc_between (pre x y P : List Int)
    (h1 : std_lexicographical_compare (pre ++ x) P = true)
    (h2 : std_lexicographical_compare P (pre ++ y) = true) :
    ∃ z, P = pre ++ z ∧ std_lexicographical_compare x z = true ∧
      std_lexicographical_compare z y = true := by
  induction pre generalizing P with
  | nil => exact ⟨P, rfl, h1, h2⟩
  | cons a pre ih =>
    cases P with
    | nil => simp [std_lexicographical_compare] at h1
    | cons c P =>
      obtain ⟨hac, h1'⟩ := slc_cons_cons _ _ _ _ h1
      obtain ⟨hca, h2'⟩ := slc_cons_cons _ _ _ _ h2
      have e : a = c := by omega
      subst e
      obtain ⟨z, hz, hz1, hz2⟩ := ih P (h1' rfl) (h2' rfl)
      exact ⟨z, by rw [hz]; rfl, hz1, hz2⟩

/-- A non-increasing range is not lexicographically less than any of its
rearrangements. -/
theorem slc_descending_max (S : List Int) (hs : S.Sorted (· ≥ ·)) (P : List Int)
    (hp : P.Perm S) : std_lexicographical_compare S P = false := by
  induction S generalizing P with
  | nil =>
    have := hp.eq_nil
    subst this; rfl
  | cons s S ih =>
    cases P with
    | nil => exact absurd hp.length_eq (by simp)
    | cons c P =>
      have hcs : c ≤ s := by
        have hc : c ∈ s :: S := hp.subset (by simp)
        rcases List.mem_cons.1 hc with e | e
        · omega
        · exact (List.sorted_cons.1 hs).1 c e
      by_cases hlt : c < s
      · have h1 : ¬ s < c := by omega
        simp [std_lexicographical_compare, h1, hlt]
      · have e : c = s := by omega
        subst e
        have := ih (List.sorted_cons.1 hs).2 P hp.cons_inv
        simp [std_lexicographical_compare, this]

/-- No rearrangement of a non-decreasing range is lexicographically less than it. -/
theorem slc_ascending_min (S : List Int) (hs : S.Sorted (· ≤ ·)) (P : List Int)
    (hp : P.Perm S) : std_lexicographical_compare P S = false := by
  induction S generalizing P with
  | nil =>
    have := hp.eq_nil
    subst this; rfl
  | cons s S ih =>
    cases P with
    | nil => exact absurd hp.length_eq (by simp)
    | cons c P =>
      have hcs : s ≤ c := by
        have hc : c ∈ s :: S := hp.subset (by simp)
        rcases List.mem_cons.1 hc with e | e
        · omega
        · exact (List.sorted_cons.1 hs).1 c e
      by_cases hlt : s < c
      · have h1 : ¬ c < s := by omega
        simp [std_lexicographical_compare, h1, hlt]
      · have e : c = s := by omega
        subst e
        have := ih (List.sorted_cons.1 hs).2 P hp.cons_inv
        simp [std_lexicographical_compare, this]

/-- An ordered part for `<` is a sorted list. -/
theorem sorted_of_chain_next (l : List Int)
    (hc : List.Chain' (fun x y => decide (y < x) = false) l) : l.Sorted (· ≤ ·) := by
  have h1 : List.Chain' (· ≤ ·) l :=
    hc.imp fun a b h => by simp only [decide_eq_false_iff_not] at h; omega
  exact List.chain'_iff_pairwise.1 h1

/-- The step of `next_permutation` on an array that is not non-increasing gives a
lexicographically greater array with no rearrangement strictly in between. -/
theorem permutationStep_next_successor (A : List Int) (h : ArrayIsDecreasing A = false) :
    std_lexicographical_compare A (permutationStep (fun a b => decide (a < b)) A) = true ∧
      ∀ P : List Int, P.Perm A →
        ¬ (std_lexicographical_compare A P = true ∧
          std_lexicographical_compare P (permutationStep (fun a b => decide (a < b)) A) = true) := by
  obtain ⟨u, q, v, p, rest, hA, hN, hc, hcupv, hu, hq, hv, -⟩ :=
    permutationStep_analysis _ lt_next_trans lt_next_tri A (sortedRun_next_ne_nil A h)
  have hpq : p < q := by simpa using hq
  rw [hN]
  refine ⟨?_, ?_⟩
  · rw [hA, slc_append_left]
    simp [std_lexicographical_compare, hpq]
  · rintro P hP ⟨h1, h2⟩
    rw [hA] at h1 hP
    obtain ⟨z, hz, hz1, hz2⟩ := slc_between _ _ _ P h1 h2
    rw [hz] at hP
    have hzp : z.Perm (p :: (u ++ q :: v).reverse) := (List.perm_append_left_iff _).1 hP
    have hsuf : ((u ++ q :: v).reverse).Sorted (· ≥ ·) := by
      have := sorted_of_chain_next _ hc
      exact List.pairwise_reverse.2 this
    have hrun' : (u ++ p :: v).Sorted (· ≤ ·) := sorted_of_chain_next _ hcupv
    cases z with
    | nil => exact absurd hzp.length_eq (by simp)
    | cons z0 zt =>
      obtain ⟨hpz, hz1'⟩ := slc_cons_cons _ _ _ _ hz1
      obtain ⟨hzq, hz2'⟩ := slc_cons_cons _ _ _ _ hz2
      have hmem : z0 ∈ p :: (u ++ q :: v).reverse := hzp.subset (by simp)
      have hcase : z0 = p ∨ z0 = q := by
        rcases List.mem_cons.1 hmem with e | e
        · exact Or.inl e
        · rw [List.mem_reverse, List.mem_append, List.mem_cons] at e
          rcases e with e | e | e
          · have := hu z0 e
            simp only [decide_eq_false_iff_not] at this
            left; omega
          · exact Or.inr e
          · have := hv z0 e
            simp only [decide_eq_false_iff_not] at this
            right; omega
      rcases hcase with e | e
      · subst e
        have hzt : zt.Perm (u ++ q :: v).reverse := hzp.cons_inv
        have := slc_descending_max _ hsuf zt hzt
        rw [hz1' rfl] at this
        cases this
      · subst e
        have hperm2 : (z0 :: (u ++ p :: v)).Perm (p :: (u ++ z0 :: v).reverse) := by
          have a1 : (p :: (u ++ z0 :: v).reverse).Perm (p :: (u ++ z0 :: v)) :=
            (List.reverse_perm _).cons p
          have a2 : (p :: (u ++ z0 :: v)).Perm (p :: z0 :: (u ++ v)) := List.perm_middle.cons p
          have a3 : (z0 :: (u ++ p :: v)).Perm (z0 :: p :: (u ++ v)) := List.perm_middle.cons z0
          exact a3.trans ((List.Perm.swap p z0 _).trans (a1.trans a2).symm)
        have hzt : zt.Perm (u ++ p :: v) := (hzp.trans hperm2.symm).cons_inv
        have := slc_ascending_min _ hrun' zt hzt
        rw [hz2' rfl] at this
        cases this

/-- `std_accumulate_op` is the left fold of its operation. -/
theorem std_accumulate_op_eq_foldl (op : Int → Int → Int) (A : List Int) (init : Int) :
    std_accumulate_op op A init = A.foldl op init := by
  induction A generalizing init with
  | nil => rfl
  | cons x rest ih => simp [std_accumulate_op, ih]

/-- Reducing an intermediate difference to `int32` does not change the reduced
result. -/
theorem wrap32_sub_left (a b : Int) : wrap32 (wrap32 a - b) = wrap32 (a - b) := by
  unfold wrap32; omega

/-- The `int32` negation of a reduced value is the reduced negation. -/
theorem wrap32_neg_wrap32 (a : Int) : wrap32 (-(wrap32 a)) = wrap32 (-a) := by
  unfold wrap32; omega

/-- Reducing a summand to `int32` does not change the reduced sum. -/
theorem wrap32_add_right (a b : Int) : wrap32 (a + wrap32 b) = wrap32 (a + b) := by
  unfold wrap32; omega

/-- From an `int32` seed, the fold of `int32` subtraction is the seed minus the
exact sum, reduced to `int32`. -/
theorem std_accumulate_sub_eq_wrap (A : List Int) (init : Int) (h : isInt32 init) :
    std_accumulate_op sub32 A init = wrap32 (init - A.sum) := by
  induction A generalizing init with
  | nil => simp [std_accumulate_op, wrap32_of_isInt32 init h]
  | cons x rest ih =>
    rw [std_accumulate_op, sub32, ih _ (wrap32_isInt32 _), wrap32_sub_left, List.sum_cons]
    congr 1; omega

/-- On ranges of equal positive length `std_inner_product` stays in bounds and
returns the seed plus the sum of the products, reduced to `int32`. -/
theorem std_inner_product_eq (A B : List Int) (init : Int) (i : Nat)
    (hlen : A.length = B.length) (hpos : 0 < A.length) :
    std_inner_product A B init i = .done (wrap32 (init + (List.zipWith (· * ·) A B).sum)) := by
  induction A generalizing B init i with
  | nil => simp at hpos
  | cons a as ih =>
    cases B with
    | nil => simp at hlen
    | cons b bs =>
      have hlen' : as.length = bs.length := by simpa using hlen
      cases as with
      | nil =>
        have hbs : bs = [] := List.length_eq_zero.1 (by simpa using hlen'.symm)
        subst hbs
        simp only [std_inner_product, add32, mul32, wrap32_add_right, List.zipWith_cons_cons,
          List.zipWith_nil_left, List.sum_cons, List.sum_nil, add_zero]
      | cons a2 as2 =>
        rw [std_inner_product, ih bs _ (i + 1) hlen' (by simp)]
        simp only [add32, mul32, wrap32_add_right, wrap32_add_left, List.zipWith_cons_cons,
          List.sum_cons]
        congr 2; omega

/-- The offset returned by the loop moves with the starting offset. -/
theorem is_sorted_until_loop_shift (first : Int) (rest : List Int) (i : Nat) :
    is_sorted_until_loop first rest (i + 1) = is_sorted_until_loop first rest i + 1 := by
  induction rest generalizing first i with
  | nil => rfl
  | cons x rest ih =>
    unfold is_sorted_until_loop
    split
    · rfl
    · exact ih x (i + 1)

/-- `std_is_sorted_until` on a range with at least two elements. -/
theorem std_is_sorted_until_cons_cons (a b : Int) (t : List Int) :
    std_is_sorted_until (a :: b :: t) =
      if b < a then 1 else std_is_sorted_until (b :: t) + 1 := by
  simp only [std_is_sorted_until, is_sorted_until_loop]
  split
  · rfl
  · exact is_sorted_until_loop_shift b t 1

/-- The offset returned by `std_is_sorted_until` is within the range, has no
descent before it, and is a descent unless it is the length. -/
theorem std_is_sorted_until_spec (A : List Int) :
    std_is_sorted_until A ≤ A.length ∧
      (∀ j, 1 ≤ j → j < std_is_sorted_until A → ¬ A.getD j 0 < A.getD (j - 1) 0) ∧
      (std_is_sorted_until A < A.length →
        1 ≤ std_is_sorted_until A ∧
        A.getD (std_is_sorted_until A) 0 < A.getD (std_is_sorted_until A - 1) 0) := by
  induction A with
  | nil => simp [std_is_sorted_until]
  | cons a t ih =>
    cases t with
    | nil =>
      refine ⟨by simp [std_is_sorted_until, is_sorted_until_loop], fun j h1 h2 => ?_, fun h => ?_⟩
      · simp [std_is_sorted_until, is_sorted_until_loop] at h2; omega
      · simp [std_is_sorted_until, is_sorted_until_loop] at h
    | cons b t =>
      rw [std_is_sorted_until_cons_cons]
      obtain ⟨ih1, ih2, ih3⟩ := ih
      by_cases hba : b < a
      · simp only [hba, if_true]
        refine ⟨by simp, fun j h1 h2 => by omega, fun _ => ⟨le_refl 1, by simpa using hba⟩⟩
      · simp only [hba, if_false]
        refine ⟨by simpa using ih1, fun j h1 h2 => ?_, fun h => ?_⟩
        · cases j with
          | zero => omega
          | succ j =>
            cases j with
            | zero => simpa using hba
            | succ j =>
              have := ih2 (j + 1) (by omega) (by omega)
              simpa using this
        · have hlt : std_is_sorted_until (b :: t) < (b :: t).length := by simpa using h
          obtain ⟨h1, h2⟩ := ih3 hlt
          refine ⟨by omega, ?_⟩
          obtain ⟨k, hk⟩ : ∃ k, std_is_sorted_until (b :: t) = k + 1 := ⟨_, (Nat.sub_add_cancel h1).symm⟩
          rw [hk] at h2 ⊢
          simpa using h2

/-- `std_is_sorted_until` returns the length exactly on ranges accepted by
`Algo_IsSorted`. -/
theorem std_is_sorted_until_eq_length_iff (A : List Int) :
    std_is_sorted_until A = A.length ↔ Algo_IsSorted A = true := by
  induction A with
  | nil => simp [std_is_sorted_until, Algo_IsSorted]
  | cons a t ih =>
    cases t with
    | nil => simp [std_is_sorted_until, is_sorted_until_loop, Algo_IsSorted]
    | cons b t =>
      rw [std_is_sorted_until_cons_cons]
      by_cases hba : b < a
      · simp [hba, Algo_IsSorted]
      · simp only [hba, if_false, Algo_IsSorted, ← ih, List.length_cons]
        omega

/-- The length test of `IsSorted` does not change the answer of `Algo_IsSorted`. -/
theorem IsSorted_eq_Algo (A : List Int) : IsSorted A = Algo_IsSorted A := by
  match A with
  | [] => rfl
  | [_] => rfl
  | _ :: _ :: _ => simp [IsSorted]

/-- `std_iota` keeps the length. -/
theorem std_iota_length (A : List Int) (v : Int) : (std_iota A v).length = A.length := by
  induction A generalizing v with
  | nil => rfl
  | cons x rest ih => simp [std_iota, ih]

/-- Without overflow element `i` written by `std_iota` is the start value plus `i`. -/
theorem std_iota_getElem? (A : List Int) (v : Int) (hv : isInt32 v)
    (hmax : v + (A.length : Int) - 1 ≤ 2147483647) (i : Nat) (hi : i < A.length) :
    (std_iota A v)[i]? = some (v + (i : Int)) := by
  induction A generalizing v i with
  | nil => simp at hi
  | cons x rest ih =>
    cases i with
    | zero => simp [std_iota]
    | succ i =>
      have hi' : i < rest.length := by simpa using hi
      simp only [List.length_cons, Nat.cast_add, Nat.cast_one] at hmax
      have hadd : add32 v 1 = v + 1 := by
        unfold isInt32 at hv
        unfold add32 wrap32; omega
      simp only [std_iota, List.getElem?_cons_succ, hadd]
      rw [ih (v + 1) (by unfold isInt32 at hv ⊢; omega) (by omega) i hi']
      congr 1; push_cast; omega

/-- Without overflow the run written by `std_iota` is strictly increasing. -/
theorem std_iota_strict (A : List Int) (v : Int) (hv : isInt32 v)
    (hmax : v + (A.length : Int) - 1 ≤ 2147483647) :
    ArrayIsStrictlyIncreasing (std_iota A v) = true := by
  induction A generalizing v with
  | nil => rfl
  | cons x rest ih =>
    cases rest with
    | nil => rfl
    | cons y rest =>
      simp only [List.length_cons, Nat.cast_add, Nat.cast_one] at hmax
      have hadd : add32 v 1 = v + 1 := by
        unfold isInt32 at hv
        unfold add32 wrap32; omega
      have hnext := ih (v + 1) (by unfold isInt32 at hv ⊢; omega)
        (by simp only [List.length_cons, Nat.cast_add, Nat.cast_one]; omega)
      simp only [std_iota, hadd] at hnext ⊢
      simp only [ArrayIsStrictlyIncreasing]
      rw [if_neg (by omega)]
      exact hnext

/-- For `N ≥ 0`, `ClampN` returns an array of the same length whose first
`min(N, len)` elements are clamped and whose other elements are unchanged. -/
theorem ClampN_of_nonneg (A : List Int) (Min Max N : Int) (hN : 0 ≤ N) :
    ∃ R, ClampN A Min Max N = .done R ∧ R.length = A.length ∧
      (∀ i : Nat, (i : Int) < min N (A.length : Int) →
        R[i]? = (A[i]?).map (fun x => FMath_Clamp x Min Max)) ∧
      (∀ i : Nat, min N (A.length : Int) ≤ (i : Int) → R[i]? = A[i]?) := by
  have hmin : FMath_Min N (A.length : Int) = min N (A.length : Int) := by
    unfold FMath_Min; split <;> omega
  have h0 : ¬ FMath_Min N (A.length : Int) < 0 := by rw [hmin]; omega
  have hR : ClampN A Min Max N = .done
      ((A.take (min N (A.length : Int)).toNat).map (fun x => FMath_Clamp x Min Max)
        ++ A.drop (min N (A.length : Int)).toNat) := by
    have h0' : ¬ min N (A.length : Int) < 0 := by omega
    simp only [ClampN, std_for_each_prefix, hmin, if_neg h0']
  refine ⟨_, hR, ?_, ?_, ?_⟩
  · simp only [List.length_append, List.length_map, List.length_take, List.length_drop]
    omega
  · intro i hi
    have hi' : i < (min N (A.length : Int)).toNat := by omega
    rw [List.getElem?_append_left (by simp only [List.length_map, List.length_take]; omega)]
    rw [List.getElem?_map, List.getElem?_take_of_lt hi']
  · intro i hi
    have hi' : (min N (A.length : Int)).toNat ≤ i := by omega
    rw [List.getElem?_append_right (by simp only [List.length_map, List.length_take]; omega)]
    simp only [List.length_map, List.length_take, List.getElem?_drop]
    congr 1; omega

/-- With every draw in range, selection sampling of `n ≤ len` elements returns
exactly `n` elements forming a subsequence of the population. -/
theorem selection_sample_spec (rng : Nat → Nat) (hr : ∀ s, 0 < s → rng s < s)
    (l : List Int) (n : Nat) (hn : n ≤ l.length) :
    (selection_sample rng l n).length = n ∧ (selection_sample rng l n).Sublist l := by
  induction l generalizing n with
  | nil =>
    have : n = 0 := by simpa using hn
    subst this
    simp [selection_sample]
  | cons x rest ih =>
    unfold selection_sample
    by_cases h0 : n = 0
    · subst h0; simp
    · rw [if_neg h0]
      by_cases hsel : rng (rest.length + 1) < n
      · rw [if_pos hsel]
        obtain ⟨h1, h2⟩ := ih (n - 1) (by simp only [List.length_cons] at hn; omega)
        exact ⟨by simp only [List.length_cons, h1]; omega, h2.cons₂ x⟩
      · rw [if_neg hsel]
        have hlt := hr (rest.length + 1) (by omega)
        obtain ⟨h1, h2⟩ := ih n (by omega)
        exact ⟨h1, h2.cons x⟩

/-- A subsequence is read off at strictly increasing indices. -/
theorem sublist_indices (l1 l2 : List Int) (h : l1.Sublist l2) :
    ∃ idx : List Nat, idx.Pairwise (· < ·) ∧ (∀ i ∈ idx, i < l2.length) ∧
      l1 = idx.map (fun i => l2.getD i 0) := by
  induction h with
  | slnil => exact ⟨[], by simp⟩
  | cons a _ ih =>
    obtain ⟨idx, hp, hb, he⟩ := ih
    refine ⟨idx.map (· + 1), ?_, ?_, ?_⟩
    · exact (List.pairwise_map).2 (hp.imp fun h => by omega)
    · intro i hi
      obtain ⟨j, hj, rfl⟩ := List.mem_map.1 hi
      have := hb j hj
      simp only [List.length_cons]; omega
    · rw [he, List.map_map]
      apply List.map_congr_left
      intro j _
      simp
  | cons₂ a _ ih =>
    obtain ⟨idx, hp, hb, he⟩ := ih
    refine ⟨0 :: idx.map (· + 1), ?_, ?_, ?_⟩
    · refine List.pairwise_cons.2 ⟨?_, (List.pairwise_map).2 (hp.imp fun h => by omega)⟩
      intro i hi
      obtain ⟨j, _, rfl⟩ := List.mem_map.1 hi
      omega
    · intro i hi
      rcases List.mem_cons.1 hi with rfl | hi
      · simp
      · obtain ⟨j, hj, rfl⟩ := List.mem_map.1 hi
        have := hb j hj
        simp only [List.length_cons]; omega
    · rw [he, List.map_cons, List.map_map]
      simp only [List.getD_cons_zero, List.cons.injEq, true_and]
      apply List.map_congr_left
      intro j _
      simp

/-- On an ordered range the backward scan finds no pivot. -/
theorem sortedRun_of_chain (lt : Int → Int → Bool) (l : List Int)
    (hc : List.Chain' (fun x y => lt y x = false) l) : sortedRun lt l = (l, []) := by
  rcases sortedRun_cases lt l with ⟨_, hs⟩ | ⟨run, p, rest, hl, hne, _, hlast, _⟩
  · exact hs
  · exfalso
    rw [hl] at hc
    have h1 := (List.chain'_append.1 hc).2.2
    obtain ⟨x, hx⟩ : ∃ x, run.getLast? = some x := by
      cases hg : run.getLast? with
      | none => simp at hg; exact absurd hg hne
      | some x => exact ⟨x, rfl⟩
    have h2 := h1 x (by simp [hx]) p (by simp)
    rw [hlast x hx] at h2
    cases h2

/-- Without a pivot a permutation step reverses the range. -/
theorem permutationStep_of_chain (lt : Int → Int → Bool) (A : List Int)
    (hc : List.Chain' (fun x y => lt y x = false) A.reverse) :
    permutationStep lt A = A.reverse := by
  unfold permutationStep
  rw [sortedRun_of_chain lt A.reverse hc]

/-- On a non-increasing array `NextPermutation` returns the reversed array. -/
theorem NextPermutation_of_decreasing (A : List Int) (h : ArrayIsDecreasing A = true) :
    NextPermutation A = A.reverse := by
  unfold NextPermutation
  split
  · have hc := (ArrayIsDecreasing_iff A).1 h
    exact permutationStep_of_chain _ A (List.chain'_reverse.2 hc)
  · next hlen =>
    match A, hlen with
    | [], _ => rfl
    | [_], _ => rfl
    | _ :: _ :: _, hlen => simp at hlen

/-- `PrevPermutation` takes the reverse of a non-increasing array back to the
array. -/
theorem PrevPermutation_reverse_of_decreasing (A : List Int) (h : ArrayIsDecreasing A = true) :
    PrevPermutation A.reverse = A := by
  unfold PrevPermutation
  split
  · have hc := (ArrayIsDecreasing_iff A).1 h
    have := permutationStep_of_chain (fun a b => decide (b < a)) A.reverse
      (by rw [List.reverse_reverse]; exact hc)
    rw [std_prev_permutation, this, List.reverse_reverse]
  · next hlen =>
    rw [List.length_reverse] at hlen
    match A, hlen with
    | [], _ => rfl
    | [_], _ => rfl
    | _ :: _ :: _, hlen => simp at hlen

/-- On an array that is not non-increasing `PrevPermutation` undoes
`NextPermutation`. -/
theorem PrevPermutation_NextPermutation_interior (A : List Int)
    (h : ArrayIsDecreasing A = false) : PrevPermutation (NextPermutation A) = A := by
  have hne := sortedRun_next_ne_nil A h
  have hlen := length_of_not_decreasing A h
  have hperm := permutationStep_perm _ lt_next_trans lt_next_tri A hne
  have hrt := permutationStep_round_trip _ lt_next_trans lt_next_tri A hne
  rw [NextPermutation_eq A h]
  have hl2 : 1 < (permutationStep (fun a b => decide (a < b)) A).length := by
    rw [hperm.length_eq]; exact hlen
  simp only [PrevPermutation, gt_iff_lt, hl2, if_true, std_prev_permutation]
  exact hrt

/-- The reverse of a non-increasing array is sorted ascending. -/
theorem reverse_sorted_of_decreasing (A : List Int) (h : ArrayIsDecreasing A = true) :
    (A.reverse).Sorted (· ≤ ·) := by
  have hc := (ArrayIsDecreasing_iff A).1 h
  exact sorted_of_chain_next _ (List.chain'_reverse.2 hc)

/-! ## Rotate -/

/-- C1 (evaluation of the code): `Rotate([1,2,3,4,5], -1)` is `[5,1,2,3,4]`, the
last element moved to the front, not `[2,3,4,5,1]`: a negative amount rotates
to the right. -/
theorem Rotate_minus_one_example :
    Rotate [1, 2, 3, 4, 5] (-1) = [5, 1, 2, 3, 4] ∧
      Rotate [1, 2, 3, 4, 5] (-1) ≠ [2, 3, 4, 5, 1] := by
  decide

/-- C2: for a non-empty sequence `S` of length `n` and every integer `k`,
rotating by `k` and then by the residue of `-k` modulo `n` gives `S` back. -/
theorem Rotate_round_trip (S : List Int) (k : Int) (hS : S ≠ []) :
    Rotate (Rotate S k) ((-k) % (S.length : Int)) = S := by
  have hlen : 0 < S.length := List.length_pos.mpr hS
  have hn' : (0 : Int) < S.length := by exact_mod_cast hlen
  have hne : (S.length : Int) ≠ 0 := ne_of_gt hn'
  rw [Rotate_eq_rotate S k hlen]
  rw [Rotate_eq_rotate _ _ (by rw [List.length_rotate]; exact hlen)]
  rw [List.length_rotate, List.rotate_rotate, Int.emod_emod]
  have ha := Int.emod_nonneg k hne
  have hb := Int.emod_nonneg (-k) hne
  have hsum : (k % (S.length : Int) + (-k) % (S.length : Int)) % (S.length : Int) = 0 := by
    rw [← Int.add_emod]; simp
  have hnat : ((k % (S.length : Int)).toNat + ((-k) % (S.length : Int)).toNat) % S.length = 0 := by
    have hcast : (((k % (S.length : Int)).toNat + ((-k) % (S.length : Int)).toNat : Nat) : Int)
        = k % (S.length : Int) + (-k) % (S.length : Int) := by
      push_cast
      rw [Int.toNat_of_nonneg ha, Int.toNat_of_nonneg hb]
    have : ((((k % (S.length : Int)).toNat + ((-k) % (S.length : Int)).toNat) % S.length : Nat) : Int)
        = 0 := by
      rw [Int.natCast_mod, hcast, hsum]
    exact_mod_cast this
  rw [← List.rotate_mod, hnat, List.rotate_zero]

/-- Witness for C2 at `S = [1,2,3,4,5]`, `k = -7`. -/
theorem Rotate_round_trip_witness :
    Rotate (Rotate [1, 2, 3, 4, 5] (-7)) ((-(-7)) % (([1, 2, 3, 4, 5] : List Int).length : Int))
      = [1, 2, 3, 4, 5] :=
  Rotate_round_trip [1, 2, 3, 4, 5] (-7) (by decide)

/-- C3: on a non-empty array of length `n`, `Rotate(A, Amount)` has length `n`
and its element at index `i` is `A[(i + k) mod n]`, where `k` is the residue of
`Amount` modulo `n` in `[0, n)`; on the empty array `Rotate` returns the empty
array. -/
theorem Rotate_spec (A : List Int) (Amount : Int) :
    (A = [] → Rotate A Amount = []) ∧
    (0 < A.length →
      (Rotate A Amount).length = A.length ∧
      0 ≤ Amount % (A.length : Int) ∧ Amount % (A.length : Int) < A.length ∧
      ∀ i, i < A.length →
        (Rotate A Amount)[i]? = A[(i + (Amount % (A.length : Int)).toNat) % A.length]?) := by
  refine ⟨fun h => by rw [h, Rotate_nil], fun hA => ?_⟩
  have hn' : (0 : Int) < A.length := by exact_mod_cast hA
  rw [Rotate_eq_rotate A Amount hA]
  refine ⟨List.length_rotate _ _, Int.emod_nonneg _ (ne_of_gt hn'),
    Int.emod_lt_of_pos _ hn', fun i hi => ?_⟩
  exact List.getElem?_rotate hi

/-- Witness for C3 at `A = [1,2,3,4,5]`, `Amount = -1`: the residue is `4`. -/
theorem Rotate_spec_witness :
    (Rotate [1, 2, 3, 4, 5] (-1)).length = 5 ∧
      (Rotate [1, 2, 3, 4, 5] (-1))[0]? = some 5 := by
  obtain ⟨h1, _, _, h4⟩ := (Rotate_spec [1, 2, 3, 4, 5] (-1)).2 (by decide)
  exact ⟨h1, by rw [h4 0 (by decide)]; decide⟩

/-! ## Search -/

/-- C4: for a non-empty `B`, when `B` occurs in `A` as a contiguous run,
`Search(A, B)` sets `found = true` and returns the least index `i` at which the
window `A[i .. i+len(B))` equals `B`; when `B` does not occur it sets
`found = false` and returns `-1`. -/
theorem Search_spec (A B : List Int) (hB : B ≠ []) :
    ((∃ i, (A.drop i).take B.length = B) →
      ∃ i : Nat, Search A B = (true, (i : Int)) ∧ i < A.length ∧
        (A.drop i).take B.length = B ∧ ∀ j, j < i → (A.drop j).take B.length ≠ B) ∧
    ((¬ ∃ i, (A.drop i).take B.length = B) → Search A B = (false, -1)) := by
  have hpre : ∀ j, B <+: A.drop j ↔ (A.drop j).take B.length = B := fun j =>
    ⟨fun h => (List.prefix_iff_eq_take.1 h).symm, fun h => List.prefix_iff_eq_take.2 h.symm⟩
  rcases std_search_spec B hB A 0 with ⟨k, hk, hp, hmin, he⟩ | ⟨hnone, he⟩
  · refine ⟨fun _ => ⟨k, ?_, hk, (hpre k).1 hp, fun j hj hj2 => hmin j hj ((hpre j).2 hj2)⟩,
      fun hno => absurd ⟨k, (hpre k).1 hp⟩ hno⟩
    have hne : 0 + k ≠ A.length := by omega
    simp only [Search, he, hne, ne_eq, not_false_eq_true, if_true]
    simp
  · refine ⟨fun ⟨i, hi⟩ => absurd ((hpre i).2 hi) (hnone i), fun _ => ?_⟩
    simp [Search, he]

/-- Witness for C4: `Search([1,2,3], [3])` is `(found = true, index = 2)`. -/
theorem Search_spec_witness :
    Search [1, 2, 3] [3] = (true, 2) ∧
      ∃ i : Nat, Search [1, 2, 3] [3] = (true, (i : Int)) ∧ i < ([1, 2, 3] : List Int).length ∧
        (([1, 2, 3] : List Int).drop i).take ([3] : List Int).length = [3] ∧
        ∀ j, j < i → (([1, 2, 3] : List Int).drop j).take ([3] : List Int).length ≠ [3] :=
  ⟨by decide, (Search_spec [1, 2, 3] [3] (by decide)).1 ⟨2, by decide⟩⟩

/-- C5 fails on the empty array: `Search([], [])` reports `found = false` and
index `-1`, not `found = true` and index `0`. -/
theorem Search_empty_in_empty :
    Search [] [] = (false, -1) ∧ Search [] [] ≠ (true, 0) := by
  decide

/-- C5 as amended: with `B` empty, `Search(A, B)` reports `found = true` and
index `0` for every non-empty `A`, and `found = false` and index `-1` for the
empty `A` (the returned position is then the end of `A`). -/
theorem Search_empty_pattern (A : List Int) :
    (A ≠ [] → Search A [] = (true, 0)) ∧ (A = [] → Search A [] = (false, -1)) := by
  refine ⟨fun h => ?_, fun h => by subst h; decide⟩
  cases A with
  | nil => exact absurd rfl h
  | cons a as => simp [Search, std_search, searchInner]

/-! ## Mismatch -/

/-- C6 (evaluation of the code): on `A = [1,2,3]`, `B = [1,2]` the code
dereferences `B` at position `2`, which is not below `min(len(A), len(B)) = 2`,
instead of returning `(false, -1)`. -/
theorem Mismatch_reads_past_shorter :
    Mismatch [1, 2, 3] [1, 2] = .pastEnd 2 ∧
      Mismatch [1, 2, 3] [1, 2] ≠ .done (false, -1) := by
  decide

/-- C7 (evaluation of the code): on `A = [1]`, `B = [1,2]`, with
`len(A) ≤ len(B)`, the code sets `IsMismatch = false` although the arrays are
not equal and `ArrayIsEqual` is false. -/
theorem Mismatch_false_on_proper_prefix :
    ([1] : List Int).length ≤ ([1, 2] : List Int).length ∧
      Mismatch [1] [1, 2] = .done (false, -1) ∧
      ArrayIsEqual [1] [1, 2] = .done false := by
  decide

/-! ## Sorting -/

/-- C8 fails on `S = [2,1]`: whatever `std::partial_sort` does,
`PartialSortAscending(S, len(S))` is `[2,1]` while `StableSortAscending(S)` is
`[1,2]`. -/
theorem StableSort_ne_PartialSort_full :
    ¬ ∃ partial_sort : List Int → Nat → List Int,
      StableSortAscending [2, 1] =
        PartialSortAscending partial_sort [2, 1] (([2, 1] : List Int).length : Int) := by
  rintro ⟨ps, h⟩
  have hp : PartialSortAscending ps [2, 1] (([2, 1] : List Int).length : Int) = [2, 1] := by
    simp [PartialSortAscending]
  rw [hp] at h
  revert h
  decide

/-- C8 as amended: `PartialSortAscending(S, len(S))` returns `S` unchanged,
because `N = len(S)` is outside `[0, len(S))`; hence it equals
`StableSortAscending(S)` exactly when `S` is already ascending. -/
theorem PartialSort_full_length (partial_sort : List Int → Nat → List Int) (S : List Int) :
    PartialSortAscending partial_sort S (S.length : Int) = S ∧
      (StableSortAscending S = PartialSortAscending partial_sort S (S.length : Int) ↔
        IsSorted S = true) := by
  have h : PartialSortAscending partial_sort S (S.length : Int) = S := by
    simp [PartialSortAscending]
  refine ⟨h, ?_⟩
  rw [h, IsSorted_iff]
  exact insertionSort_eq_self_iff S

/-- C9: `StableSortAscending` is idempotent and its result is ascending
(`IsSorted` is true on it). -/
theorem StableSort_idempotent (S : List Int) :
    StableSortAscending (StableSortAscending S) = StableSortAscending S ∧
      IsSorted (StableSortAscending S) = true := by
  have hs : (StableSortAscending S).Sorted (· ≤ ·) := List.sorted_insertionSort (· ≤ ·) S
  exact ⟨(insertionSort_eq_self_iff _).2 hs, (IsSorted_iff _).2 hs⟩

/-! ## IsPermutation -/

/-- C10: `IsPermutation(A, SortAscending(A))` is true for every `A`. -/
theorem IsPermutation_SortAscending (A : List Int) :
    IsPermutation A (SortAscending A) = .done true :=
  IsPermutation_of_perm A _ (List.perm_insertionSort (· ≤ ·) A).symm

/-! ## PartialSum, PartialSumN and Accumulate -/

/-- C11: for a non-empty sequence `S` of `int32` values, `PartialSum(S)` has
the length of `S`, its element `i` is `S[0] + ... + S[i]` in `int32`
arithmetic, and its last element is `Accumulate(S)`. -/
theorem PartialSum_spec (S : List Int) (hS : S ≠ []) (h32 : ∀ x ∈ S, isInt32 x) :
    (PartialSum S).length = S.length ∧
      (∀ i, i < S.length → (PartialSum S)[i]? = some (wrap32 ((S.take (i + 1)).sum))) ∧
      (PartialSum S).getLast? = some (Accumulate S) := by
  have hlen : 0 < S.length := List.length_pos.mpr hS
  refine ⟨std_partial_sum_length S, fun i hi => std_partial_sum_getElem? S h32 i hi, ?_⟩
  rw [List.getLast?_eq_getElem?]
  have h1 : (PartialSum S).length = S.length := std_partial_sum_length S
  rw [h1]
  have h2 := std_partial_sum_getElem? S h32 (S.length - 1) (by omega)
  have h3 : S.length - 1 + 1 = S.length := by omega
  rw [h3, List.take_length] at h2
  simp only [PartialSum, h2, Accumulate, gt_iff_lt, hlen, if_true, std_accumulate_zero]

/-- Witness for C11: `PartialSum([1,2,3,4])` is `[1,3,6,10]`, whose last
element is `Accumulate([1,2,3,4]) = 10`. -/
theorem PartialSum_spec_witness :
    PartialSum [1, 2, 3, 4] = [1, 3, 6, 10] ∧
      (PartialSum [1, 2, 3, 4]).getLast? = some (Accumulate [1, 2, 3, 4]) :=
  ⟨by decide, (PartialSum_spec [1, 2, 3, 4] (by decide) (by decide)).2.2⟩

/-- C12 fails when a partial sum leaves the `int32` range: for the non-negative
sequence `[2147483647, 1]`, `PartialSum` is `[2147483647, -2147483648]`, on
which `ArrayIsIncreasing` is false. -/
theorem PartialSum_overflow_not_increasing :
    (∀ x ∈ ([2147483647, 1] : List Int), isInt32 x ∧ 0 ≤ x) ∧
      PartialSum [2147483647, 1] = [2147483647, -2147483648] ∧
      ArrayIsIncreasing (PartialSum [2147483647, 1]) = false := by
  decide

/-- C12 as amended: for a sequence `S` of non-negative values whose sum is at
most `2^31 - 1`, `ArrayIsIncreasing(PartialSum(S))` is true. -/
theorem PartialSum_increasing (S : List Int) (hnn : ∀ x ∈ S, 0 ≤ x)
    (hsum : S.sum ≤ 2147483647) :
    ArrayIsIncreasing (PartialSum S) = true := by
  cases S with
  | nil => rfl
  | cons x rest =>
    rw [List.sum_cons] at hsum
    exact ArrayIsIncreasing_partialSumLoop x rest (hnn x (by simp))
      (fun y hy => hnn y (by simp [hy])) hsum

/-- Witness for C12 as amended, at `S = [1,0,2]`. -/
theorem PartialSum_increasing_witness :
    ArrayIsIncreasing (PartialSum [1, 0, 2]) = true :=
  PartialSum_increasing [1, 0, 2] (by decide) (by decide)

/-- C13: with `m = clamp(N, 0, len(A))`, `PartialSumN(A, N)` has the length of
`A`, its element `i` is `A[0] + ... + A[i]` in `int32` arithmetic for `i < m`,
and its element `i` is `A[i]` for `i ≥ m`. -/
theorem PartialSumN_spec (A : List Int) (N : Int) (h32 : ∀ x ∈ A, isInt32 x) :
    (PartialSumN A N).length = A.length ∧
      FMath_Clamp N 0 (A.length : Int) = max 0 (min N (A.length : Int)) ∧
      (∀ i : Nat, (i : Int) < FMath_Clamp N 0 (A.length : Int) →
        (PartialSumN A N)[i]? = some (wrap32 ((A.take (i + 1)).sum))) ∧
      (∀ i : Nat, FMath_Clamp N 0 (A.length : Int) ≤ (i : Int) →
        (PartialSumN A N)[i]? = A[i]?) := by
  obtain ⟨hc, h0, hle⟩ := FMath_Clamp_length N A.length
  have hm : ((FMath_Clamp N 0 (A.length : Int)).toNat : Int) = FMath_Clamp N 0 (A.length : Int) :=
    Int.toNat_of_nonneg h0
  have hmle : (FMath_Clamp N 0 (A.length : Int)).toNat ≤ A.length := by omega
  have hlenT : (std_partial_sum (A.take (FMath_Clamp N 0 (A.length : Int)).toNat)).length
      = (FMath_Clamp N 0 (A.length : Int)).toNat := by
    rw [std_partial_sum_length, List.length_take]; omega
  refine ⟨?_, hc, fun i hi => ?_, fun i hi => ?_⟩
  · simp only [PartialSumN, List.length_append, hlenT, List.length_drop]; omega
  · have hi' : i < (FMath_Clamp N 0 (A.length : Int)).toNat := by omega
    simp only [PartialSumN]
    rw [List.getElem?_append_left (by rw [hlenT]; exact hi')]
    rw [std_partial_sum_getElem? _ (fun x hx => h32 x (List.mem_of_mem_take hx)) i
      (by rw [List.length_take]; omega)]
    rw [List.take_take, min_eq_left (by omega)]
  · have hi' : (FMath_Clamp N 0 (A.length : Int)).toNat ≤ i := by omega
    simp only [PartialSumN]
    rw [List.getElem?_append_right (by rw [hlenT]; exact hi'), hlenT, List.getElem?_drop]
    congr 1; omega

/-- Witness for C13: `PartialSumN([1,2,3], 2)` is `[1,3,3]`. -/
theorem PartialSumN_spec_witness :
    PartialSumN [1, 2, 3] 2 = [1, 3, 3] ∧ (PartialSumN [1, 2, 3] 2).length = 3 :=
  ⟨by decide, (PartialSumN_spec [1, 2, 3] 2 (by decide)).1⟩

/-- C20: `Accumulate(A)` is `-1` for the empty `A`, and otherwise the left fold
of `int32` addition over `A` from seed `0`, which is the sum of `A` reduced to
`int32`. -/
theorem Accumulate_spec (A : List Int) :
    (A = [] → Accumulate A = -1) ∧
      (A ≠ [] → Accumulate A = A.foldl add32 0 ∧ Accumulate A = wrap32 A.sum) := by
  refine ⟨fun h => by subst h; rfl, fun h => ?_⟩
  have hlen : 0 < A.length := List.length_pos.mpr h
  simp only [Accumulate, gt_iff_lt, hlen, if_true]
  exact ⟨std_accumulate_eq_foldl A 0, std_accumulate_zero A⟩

/-! ## BiggestArray and SmallestArray -/

/-- C17 fails: `[1,2]` and `[3]` have equal sums and `SmallestArray` returns
the first argument `[1,2]`, not the second. -/
theorem SmallestArray_tie_example :
    ([1, 2] : List Int).sum = ([3] : List Int).sum ∧
      SmallestArray [1, 2] [3] = [1, 2] ∧ SmallestArray [1, 2] [3] ≠ [3] := by
  decide

/-- C17 as amended: when the element sums are equal (as integers, or as
`int32` sums from seed `0`), `SmallestArray(A, B)` returns the first argument
`A`. -/
theorem SmallestArray_tie (A B : List Int) :
    (A.sum = B.sum → SmallestArray A B = A) ∧
      (A.foldl add32 0 = B.foldl add32 0 → SmallestArray A B = A) := by
  refine ⟨fun h => ?_, fun h => ?_⟩
  · simp [SmallestArray, std_accumulate_zero, h]
  · simp [SmallestArray, std_accumulate_eq_foldl, h]

/-- C18: `BiggestArray(A, B)` depends only on the `int32` sums from seed `0`:
it returns `A` when the sum of `A` is greater and `B` otherwise, so `B` when
the sums are equal. -/
theorem BiggestArray_spec (A B : List Int) :
    (A.foldl add32 0 > B.foldl add32 0 → BiggestArray A B = A) ∧
      (¬ A.foldl add32 0 > B.foldl add32 0 → BiggestArray A B = B) ∧
      (A.foldl add32 0 = B.foldl add32 0 → BiggestArray A B = B) ∧
      A.foldl add32 0 = wrap32 A.sum ∧ B.foldl add32 0 = wrap32 B.sum := by
  refine ⟨fun h => ?_, fun h => ?_, fun h => ?_, ?_, ?_⟩
  · simp only [BiggestArray, std_accumulate_eq_foldl, h, if_true]
  · simp only [BiggestArray, std_accumulate_eq_foldl, h, if_false]
  · simp [BiggestArray, std_accumulate_eq_foldl, h]
  · rw [← std_accumulate_eq_foldl, std_accumulate_zero]
  · rw [← std_accumulate_eq_foldl, std_accumulate_zero]

/-! ## ArrayMax and ArrayMin -/

/-- C19: `ArrayMax` and `ArrayMin` return `-1` on the empty array; on a
non-empty array `ArrayMax` returns an element that is `≥` every element and
`ArrayMin` an element that is `≤` every element. -/
theorem ArrayMax_ArrayMin_spec (A : List Int) :
    (A = [] → ArrayMax A = -1 ∧ ArrayMin A = -1) ∧
      (A ≠ [] → (ArrayMax A ∈ A ∧ ∀ x ∈ A, x ≤ ArrayMax A) ∧
        (ArrayMin A ∈ A ∧ ∀ x ∈ A, ArrayMin A ≤ x)) := by
  refine ⟨fun h => by subst h; exact ⟨rfl, rfl⟩, fun h => ?_⟩
  cases A with
  | nil => exact absurd rfl h
  | cons x rest => exact ⟨max_element_loop_spec x rest, min_element_loop_spec x rest⟩

/-! ## IsPermutation, continued -/

/-- C16: `IsPermutation(A, B)` always returns, without reading past either
array; it is true exactly when `len(A) = len(B)` and every value occurs as
often in `A` as in `B`; and it is symmetric in `A` and `B`. -/
theorem IsPermutation_spec (A B : List Int) :
    (∃ b, IsPermutation A B = .done b) ∧
      (IsPermutation A B = .done true ↔
        (A.length = B.length ∧ ∀ v : Int, A.count v = B.count v)) ∧
      IsPermutation A B = IsPermutation B A := by
  obtain ⟨b, hb, hbp⟩ := IsPermutation_done A B
  obtain ⟨b', hb', hbp'⟩ := IsPermutation_done B A
  refine ⟨⟨b, hb⟩, ?_, ?_⟩
  · rw [hb]
    constructor
    · intro h
      have hp : A.Perm B := hbp.1 (by simpa using h)
      exact ⟨hp.length_eq, fun v => hp.count_eq v⟩
    · rintro ⟨_, hc⟩
      rw [hbp.2 (List.perm_iff_count.2 hc)]
  · rw [hb, hb']
    congr 1
    cases b <;> cases b' <;> simp_all [List.perm_comm]

/-! ## NextPermutation and PrevPermutation -/

/-- C14: for every `A` that is not non-increasing (`ArrayIsDecreasing` false),
`PrevPermutation(NextPermutation(A)) = A`; for every `A` that is not
non-decreasing (`ArrayIsIncreasing` false),
`NextPermutation(PrevPermutation(A)) = A`. -/
theorem Permutation_round_trip (A : List Int) :
    (ArrayIsDecreasing A = false → PrevPermutation (NextPermutation A) = A) ∧
      (ArrayIsIncreasing A = false → NextPermutation (PrevPermutation A) = A) := by
  constructor
  · intro h
    have hne := sortedRun_next_ne_nil A h
    have hlen := length_of_not_decreasing A h
    have hperm := permutationStep_perm _ lt_next_trans lt_next_tri A hne
    have hrt := permutationStep_round_trip _ lt_next_trans lt_next_tri A hne
    rw [NextPermutation_eq A h]
    have hl2 : 1 < (permutationStep (fun a b => decide (a < b)) A).length := by
      rw [hperm.length_eq]; exact hlen
    simp only [PrevPermutation, gt_iff_lt, hl2, if_true, std_prev_permutation]
    exact hrt
  · intro h
    have hne := sortedRun_prev_ne_nil A h
    have hlen := length_of_not_increasing A h
    have hperm := permutationStep_perm _ lt_prev_trans lt_prev_tri A hne
    have hrt := permutationStep_round_trip _ lt_prev_trans lt_prev_tri A hne
    rw [PrevPermutation_eq A h]
    have hl2 : 1 < (permutationStep (fun a b => decide (b < a)) A).length := by
      rw [hperm.length_eq]; exact hlen
    simp only [NextPermutation, gt_iff_lt, hl2, if_true, std_next_permutation]
    exact hrt

/-- Witness for C14 at `A = [1,3,2]`, which is neither non-increasing nor
non-decreasing. -/
theorem Permutation_round_trip_witness :
    PrevPermutation (NextPermutation [1, 3, 2]) = [1, 3, 2] ∧
      NextPermutation (PrevPermutation [1, 3, 2]) = [1, 3, 2] :=
  ⟨(Permutation_round_trip [1, 3, 2]).1 (by decide),
    (Permutation_round_trip [1, 3, 2]).2 (by decide)⟩

/-- C15: for every `A` of length `> 1` that is not non-increasing,
`NextPermutation(A)` is a rearrangement of `A` (`IsPermutation` true),
`LexicographicalCompare(A, NextPermutation(A))` is true, and no rearrangement
`P` of `A` has both `LexicographicalCompare(A, P)` and
`LexicographicalCompare(P, NextPermutation(A))`; for `A` of length `≤ 1` the
input is returned unchanged. -/
theorem NextPermutation_successor (A : List Int) :
    (1 < A.length → ArrayIsDecreasing A = false →
      IsPermutation A (NextPermutation A) = .done true ∧
      LexicographicalCompare A (NextPermutation A) = true ∧
      ∀ P : List Int, P.Perm A →
        ¬ (LexicographicalCompare A P = true ∧
          LexicographicalCompare P (NextPermutation A) = true)) ∧
    (A.length ≤ 1 → NextPermutation A = A) := by
  refine ⟨fun _ h => ?_, fun h => ?_⟩
  · have hne := sortedRun_next_ne_nil A h
    have hperm := permutationStep_perm _ lt_next_trans lt_next_tri A hne
    obtain ⟨hlex, hbetween⟩ := permutationStep_next_successor A h
    rw [NextPermutation_eq A h]
    exact ⟨IsPermutation_of_perm _ _ hperm.symm, hlex, hbetween⟩
  · have : ¬ A.length > 1 := by omega
    simp [NextPermutation, this]

/-- Witness for C15 at `A = [1,2,3]`, whose successor is `[1,3,2]`. -/
theorem NextPermutation_successor_witness :
    NextPermutation [1, 2, 3] = [1, 3, 2] ∧
      IsPermutation [1, 2, 3] (NextPermutation [1, 2, 3]) = .done true ∧
      LexicographicalCompare [1, 2, 3] (NextPermutation [1, 2, 3]) = true :=
  ⟨by decide,
    ((NextPermutation_successor [1, 2, 3]).1 (by decide) (by decide)).1,
    ((NextPermutation_successor [1, 2, 3]).1 (by decide) (by decide)).2.1⟩

/-! ## Deaccumulate and InnerProduct -/

/-- C21: `Deaccumulate(A)` is the left fold of `int32` subtraction from seed
`0`; it is the negation of the sum of `A` in `int32` arithmetic, `0` for the
empty sequence; and for non-empty `A` it is the `int32` negation of
`Accumulate(A)`, which is the exact negation unless `Accumulate(A)` is
`-2^31`. -/
theorem Deaccumulate_spec (A : List Int) :
    Deaccumulate A = A.foldl sub32 0 ∧
      Deaccumulate A = wrap32 (-(A.sum)) ∧
      Deaccumulate [] = 0 ∧
      (A ≠ [] → Deaccumulate A = wrap32 (-(Accumulate A)) ∧
        (Accumulate A ≠ -2147483648 → Deaccumulate A = -(Accumulate A))) ∧
      Deaccumulate [1, 2, 3] = -6 := by
  have h1 : Deaccumulate A = wrap32 (-(A.sum)) := by
    unfold Deaccumulate
    rw [std_accumulate_sub_eq_wrap A 0 (by decide)]
    congr 1; omega
  refine ⟨std_accumulate_op_eq_foldl sub32 A 0, h1, rfl, fun hA => ?_, by decide⟩
  have hlen : 0 < A.length := List.length_pos.mpr hA
  have hacc : Accumulate A = wrap32 A.sum := by
    simp only [Accumulate, gt_iff_lt, hlen, if_true, std_accumulate_zero]
  rw [hacc, h1, wrap32_neg_wrap32]
  refine ⟨rfl, fun hne => ?_⟩
  unfold wrap32 at hne ⊢
  omega

/-- C22: when `len(A) = len(B) > 0`, `InnerProduct(A, B, Start)` returns
`Start` plus the sum of the products `A[i] * B[i]`, in `int32` arithmetic; when
the lengths differ or both sequences are empty it returns `-1`. It never reads
past either sequence. -/
theorem InnerProduct_spec (A B : List Int) (Start : Int) :
    (A.length = B.length → 0 < A.length →
      InnerProduct A B Start = .done (wrap32 (Start + (List.zipWith (· * ·) A B).sum))) ∧
    (A.length ≠ B.length → InnerProduct A B Start = .done (-1)) ∧
    (A = [] → B = [] → InnerProduct A B Start = .done (-1)) := by
  refine ⟨fun hlen hpos => ?_, fun hne => ?_, fun hA hB => ?_⟩
  · have hposB : 0 < B.length := by omega
    simp only [InnerProduct, hlen, gt_iff_lt, hposB, and_self, if_true]
    exact std_inner_product_eq A B Start 0 hlen hpos
  · simp [InnerProduct, hne]
  · subst hA; subst hB; rfl

/-- Witness for C22: `InnerProduct([1,2,3], [4,5,6], 10)` is `10 + 4 + 10 + 18`. -/
theorem InnerProduct_spec_witness :
    InnerProduct [1, 2, 3] [4, 5, 6] 10 = .done 42 ∧
      InnerProduct [1, 2, 3] [4, 5, 6] 10
        = .done (wrap32 (10 + (List.zipWith (· * ·) [1, 2, 3] [4, 5, 6]).sum)) :=
  ⟨by decide, (InnerProduct_spec [1, 2, 3] [4, 5, 6] 10).1 (by decide) (by decide)⟩

/-! ## CopyArray, ArrayTake and ArrayDrop -/

/-- C26: `CopyArray(A, B)` returns true exactly when `len(A) = len(B)`; when it
returns true the destination afterwards equals `A`, when it returns false the
destination is as it was; the source is unchanged in both cases. -/
theorem CopyArray_spec (A B : List Int) :
    ((CopyArray A B).1 = true ↔ A.length = B.length) ∧
      ((CopyArray A B).1 = true → (CopyArray A B).2.2 = A) ∧
      ((CopyArray A B).1 = false → (CopyArray A B).2.2 = B) ∧
      (CopyArray A B).2.1 = A := by
  unfold CopyArray
  by_cases h : A.length = B.length <;> simp [h]

/-- C27: with `m = clamp(N, 0, len(A))`, `ArrayTake(A, N)` is the prefix of `A`
of length `m`, `ArrayDrop(A, N)` is the suffix of `A` from index `m`, their
concatenation is `A`, and `ArrayTake` returns all of `A` for `N ≥ len(A)`. -/
theorem ArrayTake_ArrayDrop_spec (A : List Int) (N : Int) :
    FMath_Clamp N 0 (A.length : Int) = max 0 (min N (A.length : Int)) ∧
      ArrayTake A N <+: A ∧
      ((ArrayTake A N).length : Int) = FMath_Clamp N 0 (A.length : Int) ∧
      ArrayDrop A N <:+ A ∧
      ((ArrayDrop A N).length : Int) = (A.length : Int) - FMath_Clamp N 0 (A.length : Int) ∧
      (∀ i : Nat, (ArrayDrop A N)[i]? = A[(FMath_Clamp N 0 (A.length : Int)).toNat + i]?) ∧
      ArrayTake A N ++ ArrayDrop A N = A ∧
      ((A.length : Int) ≤ N → ArrayTake A N = A) := by
  obtain ⟨hc, h0, hle⟩ := FMath_Clamp_length N A.length
  have hm : ((FMath_Clamp N 0 (A.length : Int)).toNat : Int) = FMath_Clamp N 0 (A.length : Int) :=
    Int.toNat_of_nonneg h0
  have hmle : (FMath_Clamp N 0 (A.length : Int)).toNat ≤ A.length := by omega
  have hT : ArrayTake A N = A.take (FMath_Clamp N 0 (A.length : Int)).toNat := by
    simp [ArrayTake, TArray_from]
  have hD : ArrayDrop A N = A.drop (FMath_Clamp N 0 (A.length : Int)).toNat := by
    simp only [ArrayDrop, TArray_from]
    apply List.take_of_length_le
    rw [List.length_drop]
    omega
  refine ⟨hc, ?_, ?_, ?_, ?_, ?_, ?_, ?_⟩
  · rw [hT]; exact List.take_prefix _ _
  · rw [hT, List.length_take]; omega
  · rw [hD]; exact List.drop_suffix _ _
  · rw [hD, List.length_drop]; omega
  · intro i; rw [hD, List.getElem?_drop]
  · rw [hT, hD, List.take_append_drop]
  · intro hN
    rw [hT]
    apply List.take_of_length_le
    have : FMath_Clamp N 0 (A.length : Int) = A.length := by rw [hc]; omega
    omega

/-! ## IsSortedUntil, Iota and ClampN -/

/-- C23: `IsSortedUntil(A)` returns the least index `i` in `[1, len(A))` with
`A[i] < A[i-1]`, or `len(A)` when there is none; its flag is true exactly when
the returned index is `len(A)`, and exactly when `IsSorted(A)` is true. -/
theorem IsSortedUntil_spec (A : List Int) :
    (∀ i : Nat, 1 ≤ i → i < A.length → A.getD i 0 < A.getD (i - 1) 0 →
        (∀ j : Nat, 1 ≤ j → j < i → ¬ A.getD j 0 < A.getD (j - 1) 0) →
        (IsSortedUntil A).2 = (i : Int)) ∧
      ((∀ i : Nat, 1 ≤ i → i < A.length → ¬ A.getD i 0 < A.getD (i - 1) 0) →
        (IsSortedUntil A).2 = (A.length : Int)) ∧
      ((IsSortedUntil A).1 = true ↔ (IsSortedUntil A).2 = (A.length : Int)) ∧
      ((IsSortedUntil A).1 = true ↔ IsSorted A = true) := by
  obtain ⟨h1, h2, h3⟩ := std_is_sorted_until_spec A
  have hflag : (IsSortedUntil A).1 = IsSorted A := by
    simp only [IsSortedUntil, IsSorted, ← Bool.or_assoc, Bool.or_self]
  refine ⟨fun i hi1 hi2 hd hmin => ?_, fun hnone => ?_, ?_, by rw [hflag]⟩
  · have hle : std_is_sorted_until A ≤ i := by
      by_contra hgt
      exact h2 i hi1 (by omega) hd
    have hge : i ≤ std_is_sorted_until A := by
      by_contra hlt
      obtain ⟨ha, hb⟩ := h3 (by omega)
      exact hmin _ ha (by omega) hb
    have : std_is_sorted_until A = i := by omega
    simp [IsSortedUntil, this]
  · have : std_is_sorted_until A = A.length := by
      by_contra hne
      obtain ⟨ha, hb⟩ := h3 (by omega)
      exact hnone _ ha (by omega) hb
    simp [IsSortedUntil, this]
  · rw [hflag, IsSorted_eq_Algo, ← std_is_sorted_until_eq_length_iff]
    simp only [IsSortedUntil]
    exact ⟨fun h => by rw [h], fun h => by exact_mod_cast h⟩

/-- C24 fails when the counter leaves the `int32` range: `Iota([0,0],
2147483647)` is `[2147483647, -2147483648]`, on which
`ArrayIsStrictlyIncreasing` is false. -/
theorem Iota_overflow_not_increasing :
    isInt32 2147483647 ∧
      Iota [0, 0] 2147483647 = [2147483647, -2147483648] ∧
      ArrayIsStrictlyIncreasing (Iota [0, 0] 2147483647) = false := by
  decide

/-- C24 as amended: `Iota(A, Value)` has the length of `A` for every `Value`;
when `Value` is an `int32` and `Value + len(A) - 1` is at most `2^31 - 1`, its
element `i` is `Value + i` and `ArrayIsStrictlyIncreasing(Iota(A, Value))` is
true. -/
theorem Iota_spec (A : List Int) (Value : Int) :
    (Iota A Value).length = A.length ∧
      (isInt32 Value → Value + (A.length : Int) - 1 ≤ 2147483647 →
        (∀ i : Nat, i < A.length → (Iota A Value)[i]? = some (Value + (i : Int))) ∧
        ArrayIsStrictlyIncreasing (Iota A Value) = true) :=
  ⟨std_iota_length A Value, fun hV hmax =>
    ⟨fun i hi => std_iota_getElem? A Value hV hmax i hi, std_iota_strict A Value hV hmax⟩⟩

/-- Witness for C24 as amended: `Iota([1,2,3], 5)` is `[5,6,7]`, strictly
increasing; and `Iota([0,0], 2147483647)` still has length `2`. -/
theorem Iota_spec_witness :
    Iota [1, 2, 3] 5 = [5, 6, 7] ∧
      ArrayIsStrictlyIncreasing (Iota [1, 2, 3] 5) = true ∧
      (Iota [0, 0] 2147483647).length = ([0, 0] : List Int).length :=
  ⟨by decide, ((Iota_spec [1, 2, 3] 5).2 (by decide) (by decide)).2,
    (Iota_spec [0, 0] 2147483647).1⟩

/-- C25 (evaluation of the code): with `Min = 0 ≤ Max = 10` and `N = -1`,
`ClampN([1,2,3], 0, 10, -1)` hands `std::for_each` a range whose end lies
before its start, and the loop runs past the end of the array instead of
returning `[1,2,3]` unchanged. -/
theorem ClampN_negative_N :
    ClampN [1, 2, 3] 0 10 (-1) = .pastEnd 3 ∧
      ClampN [1, 2, 3] 0 10 (-1) ≠ .done [1, 2, 3] := by
  decide

/-! ## Sample -/

/-- C28: for every outcome `rng` of the random source (each draw below the
number of elements still unsampled), `Sample(A, N)` returns exactly
`clamp(N, 0, len(A))` elements, taken from strictly increasing (hence pairwise
distinct) indices of `A` in their original order: the result is a subsequence
of `A`. -/
theorem Sample_spec (rng : Nat → Nat) (hr : ∀ s, 0 < s → rng s < s)
    (A : List Int) (N : Int) :
    ((Sample rng A N).length : Int) = FMath_Clamp N 0 (A.length : Int) ∧
      FMath_Clamp N 0 (A.length : Int) = max 0 (min N (A.length : Int)) ∧
      (Sample rng A N).Sublist A ∧
      ∃ idx : List Nat, idx.Pairwise (· < ·) ∧ (∀ i ∈ idx, i < A.length) ∧
        Sample rng A N = idx.map (fun i => A.getD i 0) := by
  obtain ⟨hc, h0, hle⟩ := FMath_Clamp_length N A.length
  obtain ⟨h1, h2⟩ := selection_sample_spec rng hr A
    (min (FMath_Clamp N 0 (A.length : Int)).toNat A.length) (Nat.min_le_right _ _)
  refine ⟨?_, hc, h2, sublist_indices _ _ h2⟩
  simp only [Sample, h1]
  omega

/-- Witness for C28: with every draw `0`, `Sample([1,2,3,4,5], 2)` is `[1,2]`,
two elements of the input in input order. -/
theorem Sample_spec_witness :
    Sample (fun _ => 0) [1, 2, 3, 4, 5] 2 = [1, 2] ∧
      ((Sample (fun _ => 0) [1, 2, 3, 4, 5] 2).length : Int)
        = FMath_Clamp 2 0 (([1, 2, 3, 4, 5] : List Int).length : Int) ∧
      (Sample (fun _ => 0) [1, 2, 3, 4, 5] 2).Sublist [1, 2, 3, 4, 5] :=
  ⟨by decide,
    (Sample_spec (fun _ => 0) (fun _ h => h) [1, 2, 3, 4, 5] 2).1,
    (Sample_spec (fun _ => 0) (fun _ h => h) [1, 2, 3, 4, 5] 2).2.2.1⟩

/-! ## NextPermutation and PrevPermutation at the boundary -/

/-- C29: for every non-increasing `A`, `NextPermutation(A)` is the ascending
arrangement of `A` and `PrevPermutation` of it is `A` again; hence
`PrevPermutation(NextPermutation(A)) = A` for every sequence `A`. -/
theorem Permutation_round_trip_boundary (A : List Int) :
    (ArrayIsDecreasing A = true →
      NextPermutation A = SortAscending A ∧
      ArrayIsIncreasing (NextPermutation A) = true ∧
      PrevPermutation (NextPermutation A) = A) ∧
    PrevPermutation (NextPermutation A) = A := by
  have hb : ArrayIsDecreasing A = true → PrevPermutation (NextPermutation A) = A := fun h => by
    rw [NextPermutation_of_decreasing A h]
    exact PrevPermutation_reverse_of_decreasing A h
  refine ⟨fun h => ⟨?_, ?_, hb h⟩, ?_⟩
  · rw [NextPermutation_of_decreasing A h]
    exact List.eq_of_perm_of_sorted
      ((List.reverse_perm A).trans (List.perm_insertionSort (· ≤ ·) A).symm)
      (reverse_sorted_of_decreasing A h) (List.sorted_insertionSort (· ≤ ·) A)
  · rw [NextPermutation_of_decreasing A h, ArrayIsIncreasing_iff, List.chain'_reverse]
    exact (ArrayIsDecreasing_iff A).1 h
  · cases h : ArrayIsDecreasing A with
    | true => exact hb h
    | false => exact PrevPermutation_NextPermutation_interior A h

/-- Witness for C29 at the non-increasing `A = [3,2,2,1]`. -/
theorem Permutation_round_trip_boundary_witness :
    NextPermutation [3, 2, 2, 1] = [1, 2, 2, 3] ∧
      PrevPermutation (NextPermutation [3, 2, 2, 1]) = [3, 2, 2, 1] :=
  ⟨by decide, ((Permutation_round_trip_boundary [3, 2, 2, 1]).1 (by decide)).2.2⟩

end ArrayUtils
